import Mathlib

/-!
Verification of the DPLL CNF-SAT solver (`sat_solver`: `literals.py`,
`clauses.py`, `formula.py`, `solver.py`).

The Python data model uses `frozenset` for the literal set of a clause and
the clause set of a formula; these are embedded as `Finset`.  A Python
`dict` assignment is embedded as an association list (`Assign`) looked up
from the front, so a fresh cons behaves like a `dict` entry update.

Python iterates over sets in an unspecified order.  Wherever the source
iterates over a set (the unit-clause snapshot, the pure-literal loop, the
branching-variable maximum, the totalisation loop), this embedding fixes
the deterministic order given by sorting (`msort`), which is one of the
admissible orders of the source.  All theorems below either hold for every
order or concern values that are order-independent.

Python exceptions (the `assert target is not None` in `simplify`, and the
`StopIteration` that `next(iter(...))` would raise in `choose_variable`)
are embedded as `none` results that propagate to the caller; a normal
Python return value `r` appears as `some r`.  The solver loops, which the
source runs unboundedly, are embedded with explicit fuel; exhausted fuel
is also mapped to `none`, and the development proves that the fuel bounds
used by the entry points are never exhausted.
-/

/-- Sort key of a variable name: the list of code points.  Used only to
fix a deterministic iteration order on sets; no counterpart in the
source. -/
def strKey (s : String) : List Nat := s.data.map Char.toNat

theorem strKey_inj : Function.Injective strKey := by
  intro a b h
  have h2 : a.data = b.data :=
    List.map_injective_iff.mpr (fun x y hxy => by
      have h3 := congrArg Char.ofNat hxy
      simpa using h3) h
  cases a
  cases b
  exact congrArg String.mk h2

/-- Sorted list of the elements of a multiset, used to fix the iteration
order of the Python `for ... in <set>` loops. -/
def msort {α : Type} [LinearOrder α] (s : Multiset α) : List α :=
  Quot.liftOn s (fun l => List.insertionSort (· ≤ ·) l) (fun a b h =>
    List.eq_of_perm_of_sorted
      ((List.perm_insertionSort _ a).trans ((Quotient.exact (Quot.sound h)).trans
        (List.perm_insertionSort _ b).symm))
      (List.sorted_insertionSort _ a) (List.sorted_insertionSort _ b))

theorem msort_coe {α : Type} [LinearOrder α] (s : Multiset α) : (msort s : Multiset α) = s := by
  induction s using Quot.ind
  exact Quot.sound (List.perm_insertionSort _ _)

theorem mem_msort {α : Type} [LinearOrder α] {s : Multiset α} {x : α} :
    x ∈ msort s ↔ x ∈ s := by
  rw [← Multiset.mem_coe, msort_coe]

theorem msort_nodup {α : Type} [LinearOrder α] {s : Multiset α} (h : s.Nodup) :
    (msort s).Nodup := by
  have h2 : Multiset.Nodup (msort s : Multiset α) := by rw [msort_coe]; exact h
  exact h2

/-- `literals.py`: a propositional literal, a variable name with a
negation flag.  `@dataclass(frozen=True)` equality is structural. -/
structure Literal where
  name : String
  negated : Bool
deriving DecidableEq

/-- Deterministic order on literals (name, then sign); fixes set
iteration order only. -/
instance : LinearOrder Literal :=
  LinearOrder.lift' (fun l => toLex (strKey l.name, l.negated)) (by
    intro a b h
    have h' : (strKey a.name, a.negated) = (strKey b.name, b.negated) := h
    have h1 : a.name = b.name := strKey_inj (congrArg Prod.fst h')
    have h2 : a.negated = b.negated := congrArg Prod.snd h'
    cases a
    cases b
    simp_all)

/-- A partial variable assignment: the Python `Dict[str, bool]`,
embedded as an association list read from the front. -/
abbrev Assign := List (String × Bool)

/-- `assignment[name]` lookup (`name in assignment` is `find ≠ none`). -/
def Assign.find : Assign → String → Option Bool
  | [], _ => none
  | (y, b) :: rest, x => if y = x then some b else Assign.find rest x

/-- `Literal.eval`: value of the assignment at `name`, XOR-ed with the
negation flag; `none` when the variable is unassigned. -/
def Literal.eval (l : Literal) (a : Assign) : Option Bool :=
  match Assign.find a l.name with
  | none => none
  | some v => some (if l.negated then !v else v)

/-- `clauses.py`: a clause, a `frozenset` of literals. -/
structure Clause where
  literals : Finset Literal
deriving DecidableEq

/-- Sorted literal list of a clause; fixes the iteration order of
`for lit in self.literals`. -/
def Clause.litList (c : Clause) : List Literal := msort c.literals.val

/-- Deterministic order on clauses (by sorted literal list); fixes set
iteration order only. -/
instance : LinearOrder Clause :=
  LinearOrder.lift' Clause.litList (by
    intro a b h
    have h2 : (a.litList : Multiset Literal) = (b.litList : Multiset Literal) := by rw [h]
    rw [Clause.litList, Clause.litList, msort_coe, msort_coe] at h2
    cases a
    cases b
    simpa [Finset.val_inj] using h2)

/-- `Clause.of`: builds the clause of a collection of literals.
`set(lits)` is `toFinset`.  The source then builds `names_to_signs` and
tests each sign set for size two, but the body of that test is `pass`,
so the whole loop has no effect; it is reproduced here as a discarded
value. -/
def Clause.of (lits : List Literal) : Clause :=
  let litsSet : Finset Literal := lits.toFinset
  let _namesToSigns : Finset String :=
    (litsSet.filter (fun l => Literal.mk l.name (!l.negated) ∈ litsSet)).image (fun l => l.name)
  Clause.mk litsSet

/-- `Clause.is_empty`. -/
def Clause.is_empty (c : Clause) : Bool := decide (c.literals = ∅)

/-- `Clause.is_unit`: no literal is true and exactly one is undecided.
The source loop short-circuits on a true literal or a second undecided
literal; the result is the same for every iteration order. -/
def Clause.is_unit (c : Clause) (a : Assign) : Bool :=
  decide (∀ l ∈ c.literals, l.eval a ≠ some true) &&
  decide ((c.literals.filter (fun l => l.eval a = none)).card = 1)

/-- `Clause.evaluate`: true if some literal is true, undecided if none is
true but some is undecided, otherwise false.  The source loop returns
early on a true literal; the result is order-independent. -/
def Clause.evaluate (c : Clause) (a : Assign) : Option Bool :=
  if ∃ l ∈ c.literals, l.eval a = some true then some true
  else if ∃ l ∈ c.literals, l.eval a = none then none
  else some false

/-- The clause kept by `Clause.reduce` when no literal is true: the
undecided literals (`new_lits`). -/
def Clause.reduced (c : Clause) (a : Assign) : Clause :=
  Clause.mk (c.literals.filter (fun l => l.eval a = none))

/-- `Clause.reduce`: `None` (drop) if some literal is true, otherwise
the clause of the undecided literals.  The source returns `None` as soon
as it meets a true literal; the result is order-independent. -/
def Clause.reduce (c : Clause) (a : Assign) : Option Clause :=
  if ∃ l ∈ c.literals, l.eval a = some true then none
  else some (c.reduced a)

/-- `formula.py`: a CNF formula, a `frozenset` of clauses. -/
structure Formula where
  clauses : Finset Clause
deriving DecidableEq

/-- Whether a clause carries a literal together with its negation; this
is the `any(len(signs) == 2 ...)` test of `Formula.of`. -/
def Clause.tauto (c : Clause) : Prop :=
  ∃ l ∈ c.literals, Literal.mk l.name (!l.negated) ∈ c.literals

instance (c : Clause) : Decidable c.tauto := by
  unfold Clause.tauto
  infer_instance

/-- `Formula.of`: keeps exactly the clauses that are not tautological
(`names_to_signs` has no variable with both signs); `normalized` is a
set, embedded as the `Finset` of the kept clauses. -/
def Formula.of (cls : List Clause) : Formula :=
  Formula.mk (cls.filter (fun c => ¬ c.tauto)).toFinset

/-- `Formula.variables`: every literal name of every clause. -/
def Formula.variables (f : Formula) : Finset String :=
  f.clauses.sup (fun c => c.literals.image (fun l => l.name))

/-- `Formula.evaluate`: false if some clause is false, true if all
clauses are true, undecided otherwise.  The source loop returns early on
a false clause; the result is order-independent. -/
def Formula.evaluate (f : Formula) (a : Assign) : Option Bool :=
  if ∃ c ∈ f.clauses, c.evaluate a = some false then some false
  else if ∃ c ∈ f.clauses, c.evaluate a = none then none
  else some true

/-- `Formula.unit_clauses`: the clauses currently unit. -/
def Formula.unit_clauses (f : Formula) (a : Assign) : Finset Clause :=
  f.clauses.filter (fun c => c.is_unit a)

/-- The undecided literals of the clauses not already true: exactly the
occurrences that `Formula.pure_literals` records in `sign_by_var`. -/
def Formula.activeLits (f : Formula) (a : Assign) : Finset Literal :=
  (f.clauses.filter (fun c => c.evaluate a ≠ some true)).sup
    (fun c => c.literals.filter (fun l => l.eval a = none))

/-- `Formula.pure_literals`: one literal per variable whose recorded
occurrences all have one sign.  `sign_by_var[v] = {s}` exactly when the
literal `(v, s)` occurs and `(v, !s)` does not, so the pure literals are
the recorded occurrences whose complement is not recorded. -/
def Formula.pure_literals (f : Formula) (a : Assign) : Finset Literal :=
  (f.activeLits a).filter (fun l => Literal.mk l.name (!l.negated) ∉ f.activeLits a)

/-- The clause loop of `Formula.reduce` over iteration order `cls`,
accumulating `new_clauses`: a satisfied clause (`None`) is dropped, an
empty reduced clause returns `(Formula(frozenset()), True)` at once,
otherwise the reduced clause is added. -/
def Formula.reduceLoop (a : Assign) : List Clause → Finset Clause → Formula × Bool
  | [], acc => (Formula.mk acc, false)
  | c :: rest, acc =>
    match c.reduce a with
    | none => Formula.reduceLoop a rest acc
    | some red =>
      if red.is_empty then (Formula.mk ∅, true)
      else Formula.reduceLoop a rest (insert red acc)

/-- `Formula.reduce`: reduces every clause; returns the contradiction
flag with the empty formula as soon as a clause reduces to the empty
clause. -/
def Formula.reduce (f : Formula) (a : Assign) : Formula × Bool :=
  Formula.reduceLoop a (msort f.clauses.val) ∅

namespace DPLLSolver

/-- The body of `for cl in units` inside the unit propagation of
`simplify`, over the snapshot list `ss` taken when the loop began: find
the first undecided literal of the clause (`target`), bind its variable
to the satisfying value, reduce the formula under that single binding,
and return with `ok = False` on contradiction.  A `none` result is the
`assert target is not None` failure. -/
def propagate : List Clause → Formula → Assign → Option (Formula × Assign × Bool)
  | [], f, a => some (f, a, true)
  | cl :: rest, f, a =>
    match (cl.litList.find? (fun l => (l.eval a).isNone)) with
    | none => none
    | some target =>
      let v := !target.negated
      match f.reduce [(target.name, v)] with
      | (f2, true) => some (f2, (target.name, v) :: a, false)
      | (f2, false) => propagate rest f2 ((target.name, v) :: a)

/-- The `while True` unit-propagation loop of `simplify`: snapshot the
unit clauses, stop when there are none, otherwise run the `for` body on
the snapshot and repeat.  The fuel argument only bounds the iterations;
`simplify` supplies enough fuel for it never to run out (each pass
removes at least one variable from the formula). -/
def unitLoop : Nat → Formula → Assign → Option (Formula × Assign × Bool)
  | 0, _, _ => none
  | fuel + 1, f, a =>
    let units := f.unit_clauses a
    if units = ∅ then some (f, a, true)
    else
      match propagate (msort units.val) f a with
      | none => none
      | some (f2, a2, false) => some (f2, a2, false)
      | some (f2, a2, true) => unitLoop fuel f2 a2

/-- The assignment updates `current_assignment[lit.name] = not lit.negated`
of the pure-literal phase, one cons per pure literal. -/
def bindPures (ps : Finset Literal) (a : Assign) : Assign :=
  (msort ps.val).foldl (fun acc l => (l.name, !l.negated) :: acc) a

/-- The one-shot dictionary `partial = {lit.name: not lit.negated ...}`
that the pure-literal phase reduces under. -/
def pureBinding (ps : Finset Literal) : Assign :=
  (msort ps.val).map (fun l => (l.name, !l.negated))

/-- The outer `while changed` loop of `simplify`.  One iteration is: the
unit-propagation loop, then one pure-literal pass.  When neither phase
changed anything the source runs one more outer iteration that does
nothing and exits; that final no-op pass is collapsed here.  The fuel
bounds the outer iterations; `simplify` supplies enough for it never to
run out (each pure-literal pass removes a variable). -/
def simplifyLoop : Nat → Formula → Assign → Option (Formula × Assign × Bool)
  | 0, _, _ => none
  | fuel + 1, f, a =>
    match unitLoop (f.variables.card + 1) f a with
    | none => none
    | some (f1, a1, false) => some (f1, a1, false)
    | some (f1, a1, true) =>
      let pures := f1.pure_literals a1
      if pures = ∅ then some (f1, a1, true)
      else
        match f1.reduce (pureBinding pures) with
        | (f2, true) => some (f2, bindPures pures a1, false)
        | (f2, false) => simplifyLoop fuel f2 (bindPures pures a1)

/-- `DPLLSolver.simplify`: repeated unit propagation and pure-literal
elimination; returns `(formula, assignment, ok)`. -/
def simplify (f : Formula) (a : Assign) : Option (Formula × Assign × Bool) :=
  simplifyLoop (f.variables.card + 1) f a

/-- The occurrence count of variable `x` in `choose_variable`: one per
undecided literal named `x` in a clause not already true. -/
def varCount (f : Formula) (a : Assign) (x : String) : Nat :=
  Finset.sum (f.clauses.filter (fun c => c.evaluate a ≠ some true))
    (fun c => (c.literals.filter (fun l => l.eval a = none ∧ l.name = x)).card)

/-- `DPLLSolver.choose_variable`: the most frequent variable among
undecided literals of not-yet-true clauses; with no such occurrence,
any remaining unassigned variable of the formula.  The source takes
`max` over an unordered dict and `next(iter(...))` over an unordered
set; this embedding resolves both deterministically (least name among
the maxima, least remaining name).  `none` stands for the
`StopIteration` the fallback would raise with no remaining variable. -/
def choose_variable (f : Formula) (a : Assign) : Option String :=
  let names := (f.activeLits a).image (fun l => l.name)
  let best := names.filter (fun x => ∀ y ∈ names, varCount f a y ≤ varCount f a x)
  match (msort best.val).head? with
  | some x => some x
  | none => (msort ((f.variables.filter (fun x => Assign.find a x = none)).val)).head?

/-- The totalisation loop of `dpll`: `for v in formula.variables(): if v
not in total: total[v] = False`. -/
def totalize (f : Formula) (a : Assign) : Assign :=
  a ++ (msort ((f.variables.filter (fun v => Assign.find a v = none)).val)).map
    (fun v => (v, false))

/-- `DPLLSolver.dpll`: simplify; on contradiction answer UNSAT; if the
formula evaluates true, return the totalised assignment; if false,
answer UNSAT; otherwise branch on a chosen variable, trying `True` then
`False`, skipping a choice whose reduction contradicts, and return the
first satisfying result.  `some none` is the Python `None` (UNSAT)
return; a bare `none` is a propagated exception or exhausted fuel, and
is proved unreachable from `solve`. -/
def dpll : Nat → Formula → Assign → Option (Option Assign)
  | 0, _, _ => none
  | fuel + 1, f, a =>
    match simplify f a with
    | none => none
    | some (_, _, false) => some none
    | some (f1, a1, true) =>
      match f1.evaluate a1 with
      | some true => some (some (totalize f1 a1))
      | some false => some none
      | none =>
        match choose_variable f1 a1 with
        | none => none
        | some v =>
          let onFalse : Option (Option Assign) :=
            match f1.reduce [(v, false)] with
            | (_, true) => some none
            | (fF, false) => dpll fuel fF ((v, false) :: a1)
          match f1.reduce [(v, true)] with
          | (_, true) => onFalse
          | (fT, false) =>
            match dpll fuel fT ((v, true) :: a1) with
            | none => none
            | some (some r) => some (some r)
            | some none => onFalse

/-- `DPLLSolver.solve`: run `dpll` on the empty assignment.  The fuel
`variables.card + 1` is proved sufficient (each branch removes at least
one variable). -/
def solve (f : Formula) : Option (Option Assign) :=
  dpll (f.variables.card + 1) f []

end DPLLSolver

/-! ### Basic lemmas about assignments and literal evaluation -/

/-- `b` preserves every binding of `a` (dictionary extension). -/
def Extends (a b : Assign) : Prop :=
  ∀ x v, Assign.find a x = some v → Assign.find b x = some v

theorem Extends.refl (a : Assign) : Extends a a := fun _ _ h => h

theorem Extends.trans {a b c : Assign} (h1 : Extends a b) (h2 : Extends b c) :
    Extends a c := fun x v h => h2 x v (h1 x v h)

theorem Extends.cons_fresh {a : Assign} {x : String} {v : Bool}
    (h : Assign.find a x = none) : Extends a ((x, v) :: a) := by
  intro y w hy
  by_cases hxy : x = y
  · rw [← hxy] at hy; rw [h] at hy; exact absurd hy (by simp)
  · simpa [Assign.find, hxy] using hy

theorem Assign.find_cons_ne {a : Assign} {x y : String} {v : Bool} (h : x ≠ y) :
    Assign.find ((x, v) :: a) y = Assign.find a y := by
  simp [Assign.find, h]

theorem Assign.find_cons_self {a : Assign} {x : String} {v : Bool} :
    Assign.find ((x, v) :: a) x = some v := by
  simp [Assign.find]

theorem Literal.eval_mono {l : Literal} {a b : Assign} {v : Bool}
    (hab : Extends a b) (h : l.eval a = some v) : l.eval b = some v := by
  unfold Literal.eval at h ⊢
  cases hfa : Assign.find a l.name with
  | none => rw [hfa] at h; exact absurd h (by simp)
  | some w => rw [hfa] at h; rw [hab l.name w hfa]; exact h

theorem Literal.eval_none_of_find_none {l : Literal} {a : Assign}
    (h : Assign.find a l.name = none) : l.eval a = none := by
  unfold Literal.eval
  rw [h]

theorem Literal.find_ne_none_of_eval {l : Literal} {a : Assign} {v : Bool}
    (h : l.eval a = some v) : Assign.find a l.name ≠ none := by
  intro hn
  rw [Literal.eval_none_of_find_none hn] at h
  exact absurd h (by simp)

/-! ### Clause evaluation and reduction -/

theorem Clause.evaluate_eq_true_iff {c : Clause} {a : Assign} :
    c.evaluate a = some true ↔ ∃ l ∈ c.literals, l.eval a = some true := by
  unfold Clause.evaluate
  split
  · simp_all
  · split <;> simp_all

theorem Clause.evaluate_eq_none_iff {c : Clause} {a : Assign} :
    c.evaluate a = none ↔
      (∀ l ∈ c.literals, l.eval a ≠ some true) ∧ ∃ l ∈ c.literals, l.eval a = none := by
  unfold Clause.evaluate
  split
  · simp_all
  · split <;> simp_all

theorem Clause.evaluate_eq_false_iff {c : Clause} {a : Assign} :
    c.evaluate a = some false ↔ ∀ l ∈ c.literals, l.eval a = some false := by
  unfold Clause.evaluate
  split
  · rename_i h
    constructor
    · intro heq
      exact absurd heq (by simp)
    · intro hall
      obtain ⟨l, hl, ht⟩ := h
      rw [hall l hl] at ht
      simp at ht
  · split
    · rename_i hn
      constructor
      · intro heq
        exact absurd heq (by simp)
      · intro hall
        obtain ⟨l, hl, hn2⟩ := hn
        rw [hall l hl] at hn2
        simp at hn2
    · rename_i ht hn
      push_neg at ht hn
      simp only [Option.some.injEq, true_iff]
      intro l hl
      cases hv : l.eval a with
      | none => exact absurd hv (hn l hl)
      | some b =>
        cases b with
        | true => exact absurd hv (ht l hl)
        | false => rfl

theorem Clause.eval_trichotomy {c : Clause} {a : Assign} :
    c.evaluate a = some true ∨ c.evaluate a = some false ∨ c.evaluate a = none := by
  unfold Clause.evaluate
  split
  · exact Or.inl rfl
  · split
    · exact Or.inr (Or.inr rfl)
    · exact Or.inr (Or.inl rfl)

theorem Clause.reduce_eq_none_iff {c : Clause} {a : Assign} :
    c.reduce a = none ↔ c.evaluate a = some true := by
  rw [Clause.evaluate_eq_true_iff]
  unfold Clause.reduce
  split <;> simp_all

theorem Clause.reduce_eq_some_iff {c : Clause} {a : Assign} {c2 : Clause} :
    c.reduce a = some c2 ↔ (∀ l ∈ c.literals, l.eval a ≠ some true) ∧ c2 = c.reduced a := by
  unfold Clause.reduce
  split <;> simp_all [eq_comm]

theorem Clause.mem_reduced {c : Clause} {a : Assign} {l : Literal} :
    l ∈ (c.reduced a).literals ↔ l ∈ c.literals ∧ l.eval a = none := by
  unfold Clause.reduced
  simp

theorem Clause.reduce_empty_iff {c : Clause} {a : Assign} :
    c.reduce a = some (Clause.mk ∅) ↔ c.evaluate a = some false := by
  rw [Clause.evaluate_eq_false_iff]
  unfold Clause.reduce Clause.reduced
  split
  · rename_i h
    obtain ⟨l, hl, ht⟩ := h
    simp only [reduceCtorEq, false_iff]
    intro hall
    rw [hall l hl] at ht
    exact absurd ht (by simp)
  · rename_i h
    push_neg at h
    simp only [Option.some.injEq, Clause.mk.injEq]
    constructor
    · intro hemp l hl
      have hn : l ∉ c.literals.filter (fun l => l.eval a = none) := by
        rw [hemp]; exact Finset.not_mem_empty l
      rw [Finset.mem_filter] at hn
      push_neg at hn
      cases hv : l.eval a with
      | none => exact absurd hv (hn hl)
      | some b =>
        cases b with
        | true => exact absurd hv (h l hl)
        | false => rfl
    · intro hall
      rw [Finset.eq_empty_iff_forall_not_mem]
      intro l hl
      rw [Finset.mem_filter] at hl
      rw [hall l hl.1] at hl
      exact absurd hl.2 (by simp)

/-! ### Formula evaluation and reduction -/

theorem Formula.evaluate_true_forall {f : Formula} {a : Assign} :
    f.evaluate a = some true ↔ ∀ c ∈ f.clauses, c.evaluate a = some true := by
  unfold Formula.evaluate
  split
  · rename_i h
    constructor
    · intro heq
      exact absurd heq (by simp)
    · intro hall
      obtain ⟨c, hc, hf⟩ := h
      rw [hall c hc] at hf
      simp at hf
  · split
    · rename_i hf hn
      constructor
      · intro heq
        exact absurd heq (by simp)
      · intro hall
        obtain ⟨c, hc, hn2⟩ := hn
        rw [hall c hc] at hn2
        simp at hn2
    · rename_i hf hn
      push_neg at hf hn
      simp only [true_iff]
      intro c hc
      rcases Clause.eval_trichotomy (c := c) (a := a) with h | h | h
      · exact h
      · exact absurd h (hf c hc)
      · exact absurd h (hn c hc)

theorem Formula.evaluate_false_exists {f : Formula} {a : Assign} :
    f.evaluate a = some false ↔ ∃ c ∈ f.clauses, c.evaluate a = some false := by
  unfold Formula.evaluate
  split
  · simp_all
  · split <;> simp_all

theorem Formula.evaluate_empty (a : Assign) : (Formula.mk ∅).evaluate a = some true := by
  unfold Formula.evaluate
  simp

/-- The run of the clause loop when no clause of the iteration list
reduces to the empty clause. -/
theorem Formula.reduceLoop_ok {a : Assign} {L : List Clause} (acc : Finset Clause)
    (h : ∀ c ∈ L, c.reduce a ≠ some (Clause.mk ∅)) :
    Formula.reduceLoop a L acc =
      (Formula.mk (acc ∪ (L.filter (fun c => c.reduce a ≠ none)).toFinset.image
        (fun c => c.reduced a)), false) := by
  induction L generalizing acc with
  | nil => simp [Formula.reduceLoop]
  | cons c rest ih =>
    cases hr : c.reduce a with
    | none =>
      simp only [Formula.reduceLoop, hr]
      rw [ih acc (fun d hd => h d (List.mem_cons_of_mem c hd))]
      simp [List.filter_cons, hr]
    | some red =>
      have hne : red ≠ Clause.mk ∅ := by
        intro heq
        exact h c (List.mem_cons_self c rest) (by rw [hr, heq])
      have hemp : red.is_empty = false := by
        unfold Clause.is_empty
        simp only [decide_eq_false_iff_not]
        intro hlit
        apply hne
        cases red
        simpa using hlit
      simp only [Formula.reduceLoop, hr, hemp, Bool.false_eq_true, if_false]
      rw [ih (insert red acc) (fun d hd => h d (List.mem_cons_of_mem c hd))]
      have hred : red = c.reduced a := (Clause.reduce_eq_some_iff.mp hr).2
      have hfil : (c :: rest).filter (fun c => decide (c.reduce a ≠ none)) =
          c :: rest.filter (fun c => decide (c.reduce a ≠ none)) := by
        simp [List.filter_cons, hr]
      rw [hfil]
      simp only [List.toFinset_cons, Finset.image_insert, Prod.mk.injEq, and_true]
      rw [hred]
      rw [Finset.insert_union, Finset.union_comm, Finset.union_insert, Finset.union_comm]

/-- The run of the clause loop when some clause of the iteration list
reduces to the empty clause. -/
theorem Formula.reduceLoop_contra {a : Assign} {L : List Clause} (acc : Finset Clause)
    (h : ∃ c ∈ L, c.reduce a = some (Clause.mk ∅)) :
    Formula.reduceLoop a L acc = (Formula.mk ∅, true) := by
  induction L generalizing acc with
  | nil => simp at h
  | cons c rest ih =>
    cases hr : c.reduce a with
    | none =>
      simp only [Formula.reduceLoop, hr]
      apply ih
      obtain ⟨d, hd, hred⟩ := h
      rcases List.mem_cons.mp hd with heq | hmem
      · rw [heq] at hred
        rw [hred] at hr
        exact absurd hr (by simp)
      · exact ⟨d, hmem, hred⟩
    | some red =>
      by_cases hemp : red.is_empty = true
      · simp only [Formula.reduceLoop, hr, hemp, if_true]
      · rw [Bool.not_eq_true] at hemp
        simp only [Formula.reduceLoop, hr, hemp, Bool.false_eq_true, if_false]
        apply ih
        obtain ⟨d, hd, hred⟩ := h
        rcases List.mem_cons.mp hd with heq | hmem
        · rw [heq] at hred
          rw [hred] at hr
          have hre : red = Clause.mk ∅ := by
            injection hr with h2
            exact h2.symm
          rw [hre] at hemp
          unfold Clause.is_empty at hemp
          simp at hemp
        · exact ⟨d, hmem, hred⟩

theorem Formula.reduce_ok {f : Formula} {a : Assign}
    (h : ∀ c ∈ f.clauses, c.reduce a ≠ some (Clause.mk ∅)) :
    f.reduce a =
      (Formula.mk ((f.clauses.filter (fun c => c.reduce a ≠ none)).image
        (fun c => c.reduced a)), false) := by
  unfold Formula.reduce
  rw [Formula.reduceLoop_ok ∅ (fun c hc => h c (by rw [mem_msort] at hc; exact hc))]
  have hset : ((msort f.clauses.val).filter (fun c => decide (c.reduce a ≠ none))).toFinset =
      f.clauses.filter (fun c => c.reduce a ≠ none) := by
    ext c
    simp only [List.mem_toFinset, List.mem_filter, Finset.mem_filter, mem_msort,
      decide_eq_true_eq]
    rw [← Finset.mem_def]
  rw [hset, Finset.empty_union]

theorem Formula.reduce_contra {f : Formula} {a : Assign}
    (h : ∃ c ∈ f.clauses, c.reduce a = some (Clause.mk ∅)) :
    f.reduce a = (Formula.mk ∅, true) := by
  unfold Formula.reduce
  apply Formula.reduceLoop_contra
  obtain ⟨c, hc, hred⟩ := h
  exact ⟨c, by rwa [mem_msort, ← Finset.mem_def], hred⟩

theorem Formula.reduce_snd_true_iff {f : Formula} {a : Assign} :
    (f.reduce a).2 = true ↔ ∃ c ∈ f.clauses, c.reduce a = some (Clause.mk ∅) := by
  constructor
  · intro h
    by_contra hn
    push_neg at hn
    rw [Formula.reduce_ok hn] at h
    simp at h
  · intro h
    rw [Formula.reduce_contra h]

theorem Formula.mem_reduce_fst {f : Formula} {a : Assign} {c2 : Clause}
    (h : (f.reduce a).2 = false) :
    c2 ∈ ((f.reduce a).1).clauses ↔ ∃ c ∈ f.clauses, c.reduce a = some c2 := by
  have hn : ∀ c ∈ f.clauses, c.reduce a ≠ some (Clause.mk ∅) := by
    by_contra hc
    push_neg at hc
    rw [Formula.reduce_contra hc] at h
    simp at h
  rw [Formula.reduce_ok hn]
  simp only [Finset.mem_image, Finset.mem_filter]
  constructor
  · rintro ⟨c, ⟨hc, hr⟩, heq⟩
    refine ⟨c, hc, ?_⟩
    cases hx : c.reduce a with
    | none => exact absurd hx hr
    | some red =>
      rw [(Clause.reduce_eq_some_iff.mp hx).2, heq]
  · rintro ⟨c, hc, hr⟩
    exact ⟨c, ⟨hc, by rw [hr]; simp⟩, ((Clause.reduce_eq_some_iff.mp hr).2).symm⟩

theorem Formula.reduce_fst_of_true {f : Formula} {a : Assign}
    (h : (f.reduce a).2 = true) : (f.reduce a).1 = Formula.mk ∅ := by
  rw [Formula.reduce_contra (Formula.reduce_snd_true_iff.mp h)]

/-! ### Variables -/

theorem Formula.mem_variables {f : Formula} {x : String} :
    x ∈ f.variables ↔ ∃ c ∈ f.clauses, ∃ l ∈ c.literals, l.name = x := by
  unfold Formula.variables
  simp only [Finset.mem_sup, Finset.mem_image]

theorem Formula.variables_empty : (Formula.mk ∅).variables = ∅ := by
  unfold Formula.variables
  simp

theorem Formula.reduce_variables_subset {f : Formula} {a : Assign} :
    ((f.reduce a).1).variables ⊆ f.variables := by
  intro x hx
  cases hflag : (f.reduce a).2 with
  | true =>
    rw [Formula.reduce_fst_of_true hflag, Formula.variables_empty] at hx
    exact absurd hx (Finset.not_mem_empty x)
  | false =>
    rw [Formula.mem_variables] at hx ⊢
    obtain ⟨c2, hc2, l, hl, hn⟩ := hx
    rw [Formula.mem_reduce_fst hflag] at hc2
    obtain ⟨c, hc, hr⟩ := hc2
    rw [(Clause.reduce_eq_some_iff.mp hr).2] at hl
    exact ⟨c, hc, l, (Clause.mem_reduced.mp hl).1, hn⟩

theorem Formula.reduce_variables_not_mem {f : Formula} {p : Assign} {x : String}
    (h : Assign.find p x ≠ none) : x ∉ ((f.reduce p).1).variables := by
  intro hx
  cases hflag : (f.reduce p).2 with
  | true =>
    rw [Formula.reduce_fst_of_true hflag, Formula.variables_empty] at hx
    exact absurd hx (Finset.not_mem_empty x)
  | false =>
    rw [Formula.mem_variables] at hx
    obtain ⟨c2, hc2, l, hl, hn⟩ := hx
    rw [Formula.mem_reduce_fst hflag] at hc2
    obtain ⟨c, hc, hr⟩ := hc2
    rw [(Clause.reduce_eq_some_iff.mp hr).2] at hl
    have hnone := (Clause.mem_reduced.mp hl).2
    rw [← hn] at h
    exact h (by unfold Literal.eval at hnone; cases hf : Assign.find p l.name with
      | none => rfl
      | some v => rw [hf] at hnone; exact absurd hnone (by simp))

/-! ### Soundness and completeness of reduction

Reducing under a partial binding preserves the truth value of the
formula for every total assignment that agrees with the binding. -/

theorem Formula.reduce_sound {f : Formula} {p B : Assign}
    (hagree : Extends p B) (hflag : (f.reduce p).2 = false)
    (h : ((f.reduce p).1).evaluate B = some true) : f.evaluate B = some true := by
  rw [Formula.evaluate_true_forall] at h ⊢
  intro c hc
  cases hr : c.reduce p with
  | none =>
    rw [Clause.reduce_eq_none_iff, Clause.evaluate_eq_true_iff] at hr
    obtain ⟨l, hl, ht⟩ := hr
    exact Clause.evaluate_eq_true_iff.mpr ⟨l, hl, Literal.eval_mono hagree ht⟩
  | some c2 =>
    have hc2 : c2 ∈ ((f.reduce p).1).clauses :=
      (Formula.mem_reduce_fst hflag).mpr ⟨c, hc, hr⟩
    have ht := h c2 hc2
    rw [Clause.evaluate_eq_true_iff] at ht
    obtain ⟨l, hl, hlt⟩ := ht
    rw [(Clause.reduce_eq_some_iff.mp hr).2] at hl
    exact Clause.evaluate_eq_true_iff.mpr ⟨l, (Clause.mem_reduced.mp hl).1, hlt⟩

theorem Formula.reduce_complete {f : Formula} {p B : Assign}
    (hagree : Extends p B) (h : f.evaluate B = some true) :
    (f.reduce p).2 = false ∧ ((f.reduce p).1).evaluate B = some true := by
  rw [Formula.evaluate_true_forall] at h
  have hflag : (f.reduce p).2 = false := by
    rw [Bool.eq_false_iff]
    intro htrue
    obtain ⟨c, hc, hr⟩ := Formula.reduce_snd_true_iff.mp htrue
    rw [Clause.reduce_empty_iff, Clause.evaluate_eq_false_iff] at hr
    have hct := Clause.evaluate_eq_true_iff.mp (h c hc)
    obtain ⟨l, hl, hlt⟩ := hct
    have := Literal.eval_mono hagree (hr l hl)
    rw [hlt] at this
    simp at this
  refine ⟨hflag, ?_⟩
  rw [Formula.evaluate_true_forall]
  intro c2 hc2
  obtain ⟨c, hc, hr⟩ := (Formula.mem_reduce_fst hflag).mp hc2
  have hct := Clause.evaluate_eq_true_iff.mp (h c hc)
  obtain ⟨l, hl, hlt⟩ := hct
  rw [Clause.evaluate_eq_true_iff]
  refine ⟨l, ?_, hlt⟩
  rw [(Clause.reduce_eq_some_iff.mp hr).2, Clause.mem_reduced]
  refine ⟨hl, ?_⟩
  cases hv : l.eval p with
  | none => rfl
  | some b =>
    have hB := Literal.eval_mono hagree hv
    rw [hlt] at hB
    injection hB with hb
    rw [← hb] at hv
    exact absurd hv ((Clause.reduce_eq_some_iff.mp hr).1 l hl)

/-! ### The search invariant

Along every execution of the solver, the variables of the working
formula are disjoint from the keys of the assignment: each binding is
reduced out of the formula the moment it is made. -/

/-- No variable of the formula is bound in the assignment. -/
def VarInv (f : Formula) (a : Assign) : Prop :=
  ∀ x ∈ f.variables, Assign.find a x = none

theorem VarInv.empty_assign (f : Formula) : VarInv f [] := by
  intro x _
  rfl

theorem VarInv.literal_eval_none {f : Formula} {a : Assign} (hinv : VarInv f a)
    {c : Clause} (hc : c ∈ f.clauses) {l : Literal} (hl : l ∈ c.literals) :
    l.eval a = none :=
  Literal.eval_none_of_find_none
    (hinv l.name (Formula.mem_variables.mpr ⟨c, hc, l, hl, rfl⟩))

theorem VarInv.clause_evaluate {f : Formula} {a : Assign} (hinv : VarInv f a)
    {c : Clause} (hc : c ∈ f.clauses) :
    c.evaluate a = if c.literals = ∅ then some false else none := by
  split
  · rename_i hemp
    rw [Clause.evaluate_eq_false_iff]
    intro l hl
    rw [hemp] at hl
    exact absurd hl (Finset.not_mem_empty l)
  · rename_i hne
    rw [Clause.evaluate_eq_none_iff]
    obtain ⟨l, hl⟩ := Finset.nonempty_iff_ne_empty.mpr hne
    exact ⟨fun l2 hl2 h2 => by
      rw [hinv.literal_eval_none hc hl2] at h2
      exact absurd h2 (by simp), l, hl, hinv.literal_eval_none hc hl⟩

/-- Under the invariant, the formula evaluates true exactly when it has
no clause at all. -/
theorem VarInv.evaluate_true_iff {f : Formula} {a : Assign} (hinv : VarInv f a) :
    f.evaluate a = some true ↔ f.clauses = ∅ := by
  constructor
  · intro h
    rw [Formula.evaluate_true_forall] at h
    rw [Finset.eq_empty_iff_forall_not_mem]
    intro c hc
    have := h c hc
    rw [hinv.clause_evaluate hc] at this
    split at this <;> simp_all
  · intro h
    rw [Formula.evaluate_true_forall]
    intro c hc
    rw [h] at hc
    exact absurd hc (Finset.not_mem_empty c)

/-- Under the invariant, the formula evaluates false exactly when it
contains the empty clause. -/
theorem VarInv.evaluate_false_iff {f : Formula} {a : Assign} (hinv : VarInv f a) :
    f.evaluate a = some false ↔ Clause.mk ∅ ∈ f.clauses := by
  rw [Formula.evaluate_false_exists]
  constructor
  · rintro ⟨c, hc, hce⟩
    rw [hinv.clause_evaluate hc] at hce
    split at hce
    · rename_i hemp
      have : c = Clause.mk ∅ := by
        cases c
        simpa using hemp
      rwa [this] at hc
    · exact absurd hce (by simp)
  · intro h
    refine ⟨Clause.mk ∅, h, ?_⟩
    rw [Clause.evaluate_eq_false_iff]
    intro l hl
    exact absurd hl (Finset.not_mem_empty l)

/-- Under the invariant, a unit clause is a singleton clause. -/
theorem VarInv.unit_singleton {f : Formula} {a : Assign} (hinv : VarInv f a)
    {c : Clause} (hc : c ∈ f.clauses) (hu : c.is_unit a = true) :
    ∃ l, c.literals = {l} ∧ l.eval a = none := by
  unfold Clause.is_unit at hu
  rw [Bool.and_eq_true, decide_eq_true_eq, decide_eq_true_eq] at hu
  have hfil : c.literals.filter (fun l => l.eval a = none) = c.literals :=
    Finset.filter_true_of_mem (fun l hl => hinv.literal_eval_none hc hl)
  rw [hfil] at hu
  obtain ⟨l, hl⟩ := Finset.card_eq_one.mp hu.2
  exact ⟨l, hl, hinv.literal_eval_none hc (by rw [hl]; exact Finset.mem_singleton_self l)⟩

/-- An assignment satisfying the formula exists. -/
def Sat (f : Formula) : Prop :=
  ∃ B, f.evaluate B = some true

/-! ### Lemmas about single bindings -/

theorem Literal.eval_eq_none_iff {l : Literal} {a : Assign} :
    l.eval a = none ↔ Assign.find a l.name = none := by
  unfold Literal.eval
  cases Assign.find a l.name <;> simp

theorem Literal.eval_cons_ne {l : Literal} {a : Assign} {x : String} {v : Bool}
    (h : x ≠ l.name) : l.eval ((x, v) :: a) = l.eval a := by
  unfold Literal.eval
  rw [Assign.find_cons_ne h]

/-- Binding a literal's variable to its satisfying value makes the
literal true. -/
theorem Literal.eval_bind_self {l : Literal} {a : Assign} :
    l.eval ((l.name, !l.negated) :: a) = some true := by
  unfold Literal.eval
  rw [Assign.find_cons_self]
  cases l.negated <;> simp

/-- Binding a literal's variable to its satisfying value makes the
complementary literal false. -/
theorem Literal.eval_bind_compl {l : Literal} {a : Assign} :
    (Literal.mk l.name (!l.negated)).eval ((l.name, !l.negated) :: a) = some false := by
  unfold Literal.eval
  rw [Assign.find_cons_self]
  cases l.negated <;> simp

theorem Literal.eval_true_find {l : Literal} {B : Assign}
    (h : l.eval B = some true) : Assign.find B l.name = some (!l.negated) := by
  unfold Literal.eval at h
  cases hf : Assign.find B l.name with
  | none => rw [hf] at h; exact absurd h (by simp)
  | some w =>
    rw [hf] at h
    injection h with hw
    congr 1
    cases hneg : l.negated <;> simp_all

theorem Extends.single {B : Assign} {x : String} {v : Bool}
    (h : Assign.find B x = some v) : Extends [(x, v)] B := by
  intro y w hy
  unfold Assign.find at hy
  by_cases hxy : x = y
  · rw [if_pos hxy] at hy
    injection hy with hw
    rw [← hxy, ← hw]
    exact h
  · rw [if_neg hxy] at hy
    exact absurd hy (by simp [Assign.find])

theorem msort_singleton {α : Type} [LinearOrder α] (x : α) :
    msort ({x} : Multiset α) = [x] := rfl

theorem msort_zero {α : Type} [LinearOrder α] : msort (0 : Multiset α) = [] := rfl

theorem msort_ne_nil {α : Type} [LinearOrder α] {s : Multiset α} (h : s ≠ 0) :
    msort s ≠ [] := by
  intro hnil
  apply h
  have := msort_coe s
  rw [hnil] at this
  exact this.symm

theorem Clause.litList_singleton (l : Literal) :
    (Clause.mk {l}).litList = [l] := by
  unfold Clause.litList
  exact msort_singleton l

theorem Clause.evaluate_singleton_true {l : Literal} {B : Assign} :
    (Clause.mk {l}).evaluate B = some true ↔ l.eval B = some true := by
  rw [Clause.evaluate_eq_true_iff]
  simp

/-- A formula containing the singleton clause of `l` forces any
satisfying assignment to bind `l.name` to the value satisfying `l`. -/
theorem forced_binding {f : Formula} {l : Literal} {B : Assign}
    (hc : Clause.mk {l} ∈ f.clauses) (hB : f.evaluate B = some true) :
    Extends [(l.name, !l.negated)] B := by
  have h1 := Formula.evaluate_true_forall.mp hB (Clause.mk {l}) hc
  rw [Clause.evaluate_singleton_true] at h1
  exact Extends.single (Literal.eval_true_find h1)

/-! ### The unit-propagation snapshot -/

/-- The shape of the remaining snapshot suffix inside the
unit-propagation `for` loop, as maintained by the solver: distinct
singleton clauses whose literals are undecided and which still belong to
the current formula. -/
def SnapOK (ss : List Clause) (f : Formula) (a : Assign) : Prop :=
  ss.Nodup ∧ ∀ cl ∈ ss, ∃ l, cl = Clause.mk {l} ∧ l.eval a = none ∧ cl ∈ f.clauses

/-- Full specification of the `for cl in units` body: it never hits the
failing assertion, it extends the assignment, preserves the disjointness
invariant, shrinks the variable set (strictly if it ran at least one
step and did not stop on a contradiction), transfers satisfaction
backwards, and reports contradictions soundly. -/
theorem propagate_spec :
    ∀ (ss : List Clause) (f : Formula) (a : Assign),
    VarInv f a → SnapOK ss f a →
    ∃ f2 a2 ok, DPLLSolver.propagate ss f a = some (f2, a2, ok) ∧
      Extends a a2 ∧ VarInv f2 a2 ∧ f2.variables ⊆ f.variables ∧
      (ss ≠ [] → ok = true → f2.variables.card < f.variables.card) ∧
      (ok = true → ∀ B, Extends a2 B → f2.evaluate B = some true →
        f.evaluate B = some true) ∧
      (ok = false → ¬ Sat f) ∧
      (ok = true → Sat f → Sat f2) := by
  intro ss
  induction ss with
  | nil =>
    intro f a hinv _
    refine ⟨f, a, true, rfl, Extends.refl a, hinv, Finset.Subset.refl _,
      fun h _ => absurd rfl h, fun _ B _ h => h, fun h => by simp at h, fun _ h => h⟩
  | cons cl rest ih =>
    intro f a hinv hsnap
    obtain ⟨hnd, hshape⟩ := hsnap
    obtain ⟨l, hcl, hlnone, hclf⟩ := hshape cl (List.mem_cons_self cl rest)
    have hfind : cl.litList.find? (fun l => (l.eval a).isNone) = some l := by
      rw [hcl, Clause.litList_singleton]
      simp [List.find?, hlnone]
    have hlname : l.name ∈ f.variables :=
      Formula.mem_variables.mpr ⟨Clause.mk {l}, hcl ▸ hclf, l, Finset.mem_singleton_self l, rfl⟩
    have hfresh : Assign.find a l.name = none := Literal.eval_eq_none_iff.mp hlnone
    set p : Assign := [(l.name, !l.negated)] with hp
    cases hflag : (f.reduce p).2 with
    | true =>
      have hres : DPLLSolver.propagate (cl :: rest) f a =
          some ((f.reduce p).1, (l.name, !l.negated) :: a, false) := by
        simp only [DPLLSolver.propagate, hfind]
        rw [show f.reduce [(l.name, !l.negated)] = ((f.reduce p).1, true) from by
          rw [hp, ← hflag]]
      have hfst : (f.reduce p).1 = Formula.mk ∅ := Formula.reduce_fst_of_true hflag
      refine ⟨(f.reduce p).1, (l.name, !l.negated) :: a, false, hres,
        Extends.cons_fresh hfresh, ?_, ?_, ?_, ?_, ?_, ?_⟩
      · rw [hfst]
        intro x hx
        rw [Formula.variables_empty] at hx
        exact absurd hx (Finset.not_mem_empty x)
      · exact Formula.reduce_variables_subset
      · intro _ h
        simp at h
      · intro h
        simp at h
      · intro _
        rintro ⟨B, hB⟩
        have hagree : Extends p B := forced_binding (hcl ▸ hclf) hB
        have := (Formula.reduce_complete hagree hB).1
        rw [hflag] at this
        simp at this
      · intro h
        simp at h
    | false =>
      have hres : DPLLSolver.propagate (cl :: rest) f a =
          DPLLSolver.propagate rest (f.reduce p).1 ((l.name, !l.negated) :: a) := by
        simp only [DPLLSolver.propagate, hfind]
        rw [show f.reduce [(l.name, !l.negated)] = ((f.reduce p).1, false) from by
          rw [hp, ← hflag]]
      set f1 : Formula := (f.reduce p).1 with hf1
      set a1 : Assign := (l.name, !l.negated) :: a with ha1
      have hnotmem : l.name ∉ f1.variables :=
        Formula.reduce_variables_not_mem (by rw [hp, Assign.find_cons_self]; simp)
      have hsub1 : f1.variables ⊆ f.variables := Formula.reduce_variables_subset
      have hinv1 : VarInv f1 a1 := by
        intro x hx
        by_cases hxl : l.name = x
        · exact absurd (hxl ▸ hx) hnotmem
        · rw [ha1, Assign.find_cons_ne hxl]
          exact hinv x (hsub1 hx)
      have hsnap1 : SnapOK rest f1 a1 := by
        refine ⟨hnd.of_cons, ?_⟩
        intro cl2 hcl2
        obtain ⟨l2, hcl2eq, hl2none, hcl2f⟩ := hshape cl2 (List.mem_cons_of_mem cl hcl2)
        by_cases hname : l2.name = l.name
        · by_cases hsign : l2.negated = l.negated
          · exfalso
            have : l2 = l := by
              cases l2
              cases l
              simp_all
            rw [this] at hcl2eq
            rw [hcl2eq, ← hcl] at hcl2
            exact (List.nodup_cons.mp hnd).1 hcl2
          · exfalso
            have hl2c : l2 = Literal.mk l.name (!l.negated) := by
              cases l2
              cases l
              simp_all [Bool.eq_not_iff]
            have hred2 : cl2.reduce p = some (Clause.mk ∅) := by
              rw [Clause.reduce_empty_iff, hcl2eq, Clause.evaluate_eq_false_iff]
              intro l3 hl3
              rw [Finset.mem_singleton] at hl3
              rw [hl3, hl2c, hp]
              exact Literal.eval_bind_compl (a := [])
            have := Formula.reduce_snd_true_iff.mpr ⟨cl2, hcl2f, hred2⟩
            rw [hflag] at this
            simp at this
        · refine ⟨l2, hcl2eq, ?_, ?_⟩
          · rw [ha1, Literal.eval_cons_ne (fun h => hname h.symm)]
            exact hl2none
          · have hl2p : l2.eval p = none := by
              rw [Literal.eval_eq_none_iff, hp]
              unfold Assign.find
              rw [if_neg (fun h => hname h.symm)]
              rfl
            have : cl2.reduce p = some cl2 := by
              rw [Clause.reduce_eq_some_iff]
              refine ⟨?_, ?_⟩
              · intro l3 hl3
                rw [hcl2eq, Finset.mem_singleton] at hl3
                rw [hl3, hl2p]
                simp
              · rw [hcl2eq]
                unfold Clause.reduced
                rw [Finset.filter_true_of_mem]
                intro l3 hl3
                rw [Finset.mem_singleton] at hl3
                rw [hl3]
                exact hl2p
            exact (Formula.mem_reduce_fst hflag).mpr ⟨cl2, hcl2f, this⟩
      obtain ⟨f2, a2, ok, hres2, hext2, hinv2, hsub2, _, htrans2, hunsat2, hsat2⟩ :=
        ih f1 a1 hinv1 hsnap1
      have hextcons : Extends a a1 := Extends.cons_fresh hfresh
      have hforce : Sat f → Sat f1 := by
        rintro ⟨B, hB⟩
        have hagree : Extends p B := forced_binding (hcl ▸ hclf) hB
        exact ⟨B, (Formula.reduce_complete hagree hB).2⟩
      refine ⟨f2, a2, ok, by rw [hres, hres2], hextcons.trans hext2, hinv2,
        hsub2.trans hsub1, ?_, ?_, ?_, ?_⟩
      · intro _ hok
        have hcard : f1.variables.card < f.variables.card := by
          apply Finset.card_lt_card
          rw [Finset.ssubset_iff_of_subset hsub1]
          exact ⟨l.name, hlname, hnotmem⟩
        exact lt_of_le_of_lt (Finset.card_le_card hsub2) hcard
      · intro hok B hBext hB2
        have hagree : Extends p B := by
          intro x v hx
          have h1 : Assign.find a1 x = some v := by
            rw [ha1]
            unfold Assign.find at hx ⊢
            by_cases hxl : l.name = x
            · rwa [if_pos hxl] at hx ⊢
            · rw [if_neg hxl] at hx
              exact absurd hx (by simp [Assign.find])
          exact hBext x v (hext2 x v h1)
        exact Formula.reduce_sound hagree hflag (htrans2 hok B hBext hB2)
      · intro hok hsat
        exact hunsat2 hok (hforce hsat)
      · intro hok hs
        exact hsat2 hok (hforce hs)

/-- Full specification of the `while True` unit-propagation loop:
with fuel exceeding the number of variables it always returns, extends
the assignment, preserves the invariant, shrinks the variable set,
transfers satisfaction backwards, and reports contradictions soundly. -/
theorem unitLoop_spec :
    ∀ (fuel : Nat) (f : Formula) (a : Assign),
    VarInv f a → f.variables.card < fuel →
    ∃ f2 a2 ok, DPLLSolver.unitLoop fuel f a = some (f2, a2, ok) ∧
      Extends a a2 ∧ VarInv f2 a2 ∧ f2.variables ⊆ f.variables ∧
      (ok = true → ∀ B, Extends a2 B → f2.evaluate B = some true →
        f.evaluate B = some true) ∧
      (ok = false → ¬ Sat f) ∧
      (ok = true → Sat f → Sat f2) := by
  intro fuel
  induction fuel with
  | zero =>
    intro f a _ hlt
    exact absurd hlt (Nat.not_lt_zero _)
  | succ fuel ih =>
    intro f a hinv hlt
    by_cases hu : f.unit_clauses a = ∅
    · refine ⟨f, a, true, ?_, Extends.refl a, hinv, Finset.Subset.refl _,
        fun _ B _ h => h, fun h => by simp at h, fun _ h => h⟩
      simp only [DPLLSolver.unitLoop, hu, if_pos]
    · have hsnap : SnapOK (msort (f.unit_clauses a).val) f a := by
        refine ⟨msort_nodup (f.unit_clauses a).nodup, ?_⟩
        intro cl hcl
        rw [mem_msort, ← Finset.mem_def, Formula.unit_clauses, Finset.mem_filter] at hcl
        obtain ⟨l, hlit, hnone⟩ := hinv.unit_singleton hcl.1 hcl.2
        refine ⟨l, ?_, hnone, hcl.1⟩
        cases cl
        simpa using hlit
      obtain ⟨f2, a2, ok2, hres2, hext2, hinv2, hsub2, hstrict2, htrans2, hunsat2, hsat2⟩ :=
        propagate_spec (msort (f.unit_clauses a).val) f a hinv hsnap
      have hres : DPLLSolver.unitLoop (fuel + 1) f a =
          match some (f2, a2, ok2) with
          | none => none
          | some (f3, a3, false) => some (f3, a3, false)
          | some (f3, a3, true) => DPLLSolver.unitLoop fuel f3 a3 := by
        rw [← hres2]
        simp only [DPLLSolver.unitLoop, hu, if_neg, if_false]
      cases ok2 with
      | false =>
        refine ⟨f2, a2, false, ?_, hext2, hinv2, hsub2, fun h => by simp at h,
          hunsat2, fun h => by simp at h⟩
        rw [hres]
      | true =>
        have hne : msort (f.unit_clauses a).val ≠ [] :=
          msort_ne_nil (by
            intro hv
            exact hu (Finset.val_eq_zero.mp hv))
        have hcard2 : f2.variables.card < f.variables.card := hstrict2 hne rfl
        have hlt2 : f2.variables.card < fuel :=
          Nat.lt_of_lt_of_le hcard2 (Nat.lt_succ_iff.mp hlt)
        obtain ⟨f3, a3, ok3, hres3, hext3, hinv3, hsub3, htrans3, hunsat3, hsat3⟩ :=
          ih f2 a2 hinv2 hlt2
        refine ⟨f3, a3, ok3, ?_, hext2.trans hext3, hinv3, hsub3.trans hsub2, ?_, ?_, ?_⟩
        · rw [hres]
          exact hres3
        · intro hok B hBext hB3
          exact htrans2 rfl B (hext3.trans hBext)
            (htrans3 hok B hBext hB3)
        · intro hok hsatf
          exact hunsat3 hok (hsat2 rfl hsatf)
        · intro hok hsatf
          exact hsat3 hok (hsat2 rfl hsatf)

/-! ### Pure-literal elimination lemmas -/

theorem Formula.pure_subset_active {f : Formula} {a : Assign} :
    f.pure_literals a ⊆ f.activeLits a := Finset.filter_subset _ _

theorem Formula.mem_activeLits {f : Formula} {a : Assign} {l : Literal} :
    l ∈ f.activeLits a ↔
      ∃ c ∈ f.clauses, c.evaluate a ≠ some true ∧ l ∈ c.literals ∧ l.eval a = none := by
  unfold Formula.activeLits
  simp only [Finset.mem_sup, Finset.mem_filter]
  constructor
  · rintro ⟨c, ⟨hc, hct⟩, hl, hln⟩
    exact ⟨c, hc, hct, hl, hln⟩
  · rintro ⟨c, hc, hct, hl, hln⟩
    exact ⟨c, ⟨hc, hct⟩, hl, hln⟩

theorem Formula.activeLits_name_mem {f : Formula} {a : Assign} {l : Literal}
    (h : l ∈ f.activeLits a) : l.name ∈ f.variables := by
  obtain ⟨c, hc, _, hl, _⟩ := Formula.mem_activeLits.mp h
  exact Formula.mem_variables.mpr ⟨c, hc, l, hl, rfl⟩

/-- Under the invariant, the recorded occurrences are all the literals
of the formula (no clause is yet true and no literal decided). -/
theorem Formula.mem_activeLits_of_inv {f : Formula} {a : Assign} (hinv : VarInv f a)
    {l : Literal} : l ∈ f.activeLits a ↔ ∃ c ∈ f.clauses, l ∈ c.literals := by
  rw [Formula.mem_activeLits]
  constructor
  · rintro ⟨c, hc, _, hl, _⟩
    exact ⟨c, hc, hl⟩
  · rintro ⟨c, hc, hl⟩
    refine ⟨c, hc, ?_, hl, hinv.literal_eval_none hc hl⟩
    rw [hinv.clause_evaluate hc]
    split <;> simp

/-- Two pure literals with the same variable coincide. -/
theorem Formula.pure_names_inj {f : Formula} {a : Assign} :
    ∀ l1 ∈ f.pure_literals a, ∀ l2 ∈ f.pure_literals a, l1.name = l2.name → l1 = l2 := by
  intro l1 h1 l2 h2 hname
  unfold Formula.pure_literals at h1 h2
  rw [Finset.mem_filter] at h1 h2
  by_cases hsign : l1.negated = l2.negated
  · cases l1
    cases l2
    simp_all
  · exfalso
    have : l2 = Literal.mk l1.name (!l1.negated) := by
      cases l1
      cases l2
      simp_all [Bool.eq_not_iff]
      tauto
    rw [this] at h2
    exact h1.2 h2.1

/-! ### Association-list facts for the pure-literal bindings -/

theorem Assign.find_foldl_cons_not_mem (L : List Literal) (a : Assign) (x : String)
    (h : ∀ l ∈ L, l.name ≠ x) :
    Assign.find (L.foldl (fun acc l => (l.name, !l.negated) :: acc) a) x =
      Assign.find a x := by
  induction L generalizing a with
  | nil => rfl
  | cons l1 rest ih =>
    rw [List.foldl_cons]
    rw [ih ((l1.name, !l1.negated) :: a) (fun l hl => h l (List.mem_cons_of_mem l1 hl))]
    exact Assign.find_cons_ne (h l1 (List.mem_cons_self l1 rest))

theorem Assign.find_foldl_cons_mem (L : List Literal) (a : Assign) (l : Literal)
    (hmem : l ∈ L) (hinj : ∀ l1 ∈ L, ∀ l2 ∈ L, l1.name = l2.name → l1 = l2) :
    Assign.find (L.foldl (fun acc l => (l.name, !l.negated) :: acc) a) l.name =
      some (!l.negated) := by
  induction L generalizing a with
  | nil => exact absurd hmem (List.not_mem_nil l)
  | cons l1 rest ih =>
    rw [List.foldl_cons]
    by_cases hr : l ∈ rest
    · apply ih
      · exact hr
      · exact fun x hx y hy => hinj x (List.mem_cons_of_mem l1 hx)
          y (List.mem_cons_of_mem l1 hy)
    · have hl1 : l = l1 := by
        rcases List.mem_cons.mp hmem with h | h
        · exact h
        · exact absurd h hr
      have hnone : ∀ l2 ∈ rest, l2.name ≠ l.name := by
        intro l2 hl2 hn
        have : l2 = l := hinj l2 (List.mem_cons_of_mem l1 hl2) l hmem hn
        rw [this] at hl2
        exact hr hl2
      rw [Assign.find_foldl_cons_not_mem rest _ l.name hnone, hl1,
        Assign.find_cons_self]

theorem Assign.find_map_some {L : List Literal} {x : String} {b : Bool}
    (h : Assign.find (L.map (fun l => (l.name, !l.negated))) x = some b) :
    ∃ l ∈ L, l.name = x ∧ b = !l.negated := by
  induction L with
  | nil => exact absurd h (by simp [Assign.find])
  | cons l1 rest ih =>
    rw [List.map_cons] at h
    unfold Assign.find at h
    by_cases hx : l1.name = x
    · rw [if_pos hx] at h
      injection h with hb
      exact ⟨l1, List.mem_cons_self l1 rest, hx, hb.symm⟩
    · rw [if_neg hx] at h
      obtain ⟨l, hl, hn, hb⟩ := ih h
      exact ⟨l, List.mem_cons_of_mem l1 hl, hn, hb⟩

theorem Assign.find_map_ne_none {L : List Literal} {l : Literal} (hl : l ∈ L) :
    Assign.find (L.map (fun l => (l.name, !l.negated))) l.name ≠ none := by
  induction L with
  | nil => exact absurd hl (List.not_mem_nil l)
  | cons l1 rest ih =>
    rw [List.map_cons]
    unfold Assign.find
    by_cases hx : l1.name = l.name
    · rw [if_pos hx]
      simp
    · rw [if_neg hx]
      rcases List.mem_cons.mp hl with h | h
      · rw [h] at hx
        exact absurd rfl hx
      · exact ih h

theorem find_bindPures_not_mem {ps : Finset Literal} {a : Assign} {x : String}
    (h : ∀ l ∈ ps, l.name ≠ x) :
    Assign.find (DPLLSolver.bindPures ps a) x = Assign.find a x :=
  Assign.find_foldl_cons_not_mem _ _ _
    (fun l hl => h l (by rwa [mem_msort, ← Finset.mem_def] at hl))

theorem find_bindPures_mem {ps : Finset Literal} {a : Assign} {l : Literal}
    (hl : l ∈ ps)
    (hinj : ∀ l1 ∈ ps, ∀ l2 ∈ ps, l1.name = l2.name → l1 = l2) :
    Assign.find (DPLLSolver.bindPures ps a) l.name = some (!l.negated) :=
  Assign.find_foldl_cons_mem _ _ _ (by rwa [mem_msort, ← Finset.mem_def])
    (fun l1 h1 l2 h2 => hinj l1 (by rwa [mem_msort, ← Finset.mem_def] at h1)
      l2 (by rwa [mem_msort, ← Finset.mem_def] at h2))

theorem find_pureBinding_some {ps : Finset Literal} {x : String} {b : Bool}
    (h : Assign.find (DPLLSolver.pureBinding ps) x = some b) :
    ∃ l ∈ ps, l.name = x ∧ b = !l.negated := by
  obtain ⟨l, hl, hn, hb⟩ := Assign.find_map_some h
  exact ⟨l, by rwa [mem_msort, ← Finset.mem_def] at hl, hn, hb⟩

theorem find_pureBinding_ne_none {ps : Finset Literal} {l : Literal} (hl : l ∈ ps) :
    Assign.find (DPLLSolver.pureBinding ps) l.name ≠ none :=
  Assign.find_map_ne_none (by rwa [mem_msort, ← Finset.mem_def])

theorem extends_bindPures {ps : Finset Literal} {a : Assign}
    (h : ∀ l ∈ ps, Assign.find a l.name = none) :
    Extends a (DPLLSolver.bindPures ps a) := by
  intro x v hx
  rw [find_bindPures_not_mem]
  · exact hx
  · intro l hl hn
    rw [← hn] at hx
    rw [h l hl] at hx
    exact absurd hx (by simp)

theorem Literal.eval_of_find_self {l : Literal} {A : Assign}
    (h : Assign.find A l.name = some (!l.negated)) : l.eval A = some true := by
  unfold Literal.eval
  rw [h]
  cases l.negated <;> simp

theorem Literal.eval_congr_find {l : Literal} {A A2 : Assign}
    (h : Assign.find A l.name = Assign.find A2 l.name) : l.eval A = l.eval A2 := by
  unfold Literal.eval
  rw [h]

/-- The pure-literal model modification: rebinding every pure variable
to its unique polarity preserves satisfaction of the formula. -/
theorem pure_sat_transfer {f : Formula} {a B : Assign} (hinv : VarInv f a)
    (hB : f.evaluate B = some true) :
    f.evaluate (DPLLSolver.bindPures (f.pure_literals a) B) = some true := by
  set ps := f.pure_literals a with hps
  rw [Formula.evaluate_true_forall] at hB ⊢
  intro c hc
  obtain ⟨l, hl, hlB⟩ := Clause.evaluate_eq_true_iff.mp (hB c hc)
  rw [Clause.evaluate_eq_true_iff]
  by_cases hpure : ∃ lp ∈ ps, lp.name = l.name
  · obtain ⟨lp, hlp, hlpn⟩ := hpure
    refine ⟨lp, ?_, ?_⟩
    · have hlact : l ∈ f.activeLits a :=
        (Formula.mem_activeLits_of_inv hinv).mpr ⟨c, hc, hl⟩
      by_cases hsign : lp.negated = l.negated
      · have : lp = l := by
          cases lp
          cases l
          simp_all
        rwa [this]
      · exfalso
        have : l = Literal.mk lp.name (!lp.negated) := by
          cases lp
          cases l
          simp_all [Bool.eq_not_iff]
          tauto
        have hnot := (Finset.mem_filter.mp (hps ▸ hlp)).2
        rw [← this] at hnot
        exact hnot hlact
    · exact Literal.eval_of_find_self (find_bindPures_mem hlp Formula.pure_names_inj)
  · refine ⟨l, hl, ?_⟩
    push_neg at hpure
    rw [Literal.eval_congr_find (find_bindPures_not_mem (fun lp hlp => hpure lp hlp))]
    exact hlB

/-- Agreement of the one-shot pure binding with the rebound model. -/
theorem pureBinding_extends_bindPures {ps : Finset Literal} (B : Assign)
    (hinj : ∀ l1 ∈ ps, ∀ l2 ∈ ps, l1.name = l2.name → l1 = l2) :
    Extends (DPLLSolver.pureBinding ps) (DPLLSolver.bindPures ps B) := by
  intro x b hx
  obtain ⟨l, hl, hn, hb⟩ := find_pureBinding_some hx
  rw [← hn, hb]
  exact find_bindPures_mem hl hinj

/-- Full specification of the outer `while changed` loop of `simplify`. -/
theorem simplifyLoop_spec :
    ∀ (fuel : Nat) (f : Formula) (a : Assign),
    VarInv f a → f.variables.card < fuel →
    ∃ f2 a2 ok, DPLLSolver.simplifyLoop fuel f a = some (f2, a2, ok) ∧
      Extends a a2 ∧ VarInv f2 a2 ∧ f2.variables ⊆ f.variables ∧
      (ok = true → ∀ B, Extends a2 B → f2.evaluate B = some true →
        f.evaluate B = some true) ∧
      (ok = false → ¬ Sat f) ∧
      (ok = true → Sat f → Sat f2) := by
  intro fuel
  induction fuel with
  | zero =>
    intro f a _ hlt
    exact absurd hlt (Nat.not_lt_zero _)
  | succ fuel ih =>
    intro f a hinv hlt
    obtain ⟨f1, a1, ok1, hres1, hext1, hinv1, hsub1, htrans1, hunsat1, hsat1⟩ :=
      unitLoop_spec (f.variables.card + 1) f a hinv (Nat.lt_succ_self _)
    cases ok1 with
    | false =>
      refine ⟨f1, a1, false, ?_, hext1, hinv1, hsub1, fun h => by simp at h,
        hunsat1, fun h => by simp at h⟩
      simp only [DPLLSolver.simplifyLoop, hres1]
    | true =>
      set ps := f1.pure_literals a1 with hps
      by_cases hpe : ps = ∅
      · refine ⟨f1, a1, true, ?_, hext1, hinv1, hsub1, htrans1, fun h => by simp at h,
          hsat1⟩
        simp only [DPLLSolver.simplifyLoop, hres1, ← hps, hpe, if_pos]
      · have hnames_none : ∀ l ∈ ps, Assign.find a1 l.name = none := fun l hl =>
          hinv1 l.name (Formula.activeLits_name_mem (Formula.pure_subset_active hl))
        have hext12 : Extends a1 (DPLLSolver.bindPures ps a1) :=
          extends_bindPures hnames_none
        have hinj : ∀ l1 ∈ ps, ∀ l2 ∈ ps, l1.name = l2.name → l1 = l2 :=
          Formula.pure_names_inj
        have hsat_step : Sat f1 →
            (f1.reduce (DPLLSolver.pureBinding ps)).2 = false ∧
            Sat (f1.reduce (DPLLSolver.pureBinding ps)).1 := by
          rintro ⟨B, hB⟩
          have hB2 := pure_sat_transfer hinv1 hB
          have hagree := pureBinding_extends_bindPures B hinj
          obtain ⟨hflag, hsat⟩ := Formula.reduce_complete hagree (hps ▸ hB2)
          exact ⟨hflag, ⟨DPLLSolver.bindPures ps B, hsat⟩⟩
        cases hflag : (f1.reduce (DPLLSolver.pureBinding ps)).2 with
        | true =>
          have hfst := Formula.reduce_fst_of_true hflag
          refine ⟨(f1.reduce (DPLLSolver.pureBinding ps)).1, DPLLSolver.bindPures ps a1,
            false, ?_, hext1.trans hext12, ?_, ?_, fun h => by simp at h, ?_,
            fun h => by simp at h⟩
          · simp only [DPLLSolver.simplifyLoop, hres1, ← hps, if_neg hpe]
            rw [show f1.reduce (DPLLSolver.pureBinding ps) =
              ((f1.reduce (DPLLSolver.pureBinding ps)).1, true) from by rw [← hflag]]
          · rw [hfst]
            intro x hx
            rw [Formula.variables_empty] at hx
            exact absurd hx (Finset.not_mem_empty x)
          · exact Formula.reduce_variables_subset.trans hsub1
          · intro _ hsatf
            obtain ⟨hflag2, _⟩ := hsat_step (hsat1 rfl hsatf)
            rw [hflag] at hflag2
            exact absurd hflag2 (by simp)
        | false =>
          set f2 := (f1.reduce (DPLLSolver.pureBinding ps)).1 with hf2
          set a2 := DPLLSolver.bindPures ps a1 with ha2
          have hsub12 : f2.variables ⊆ f1.variables := Formula.reduce_variables_subset
          have hpure_removed : ∀ l ∈ ps, l.name ∉ f2.variables := fun l hl =>
            Formula.reduce_variables_not_mem (find_pureBinding_ne_none hl)
          have hinv2 : VarInv f2 a2 := by
            intro x hx
            have hxn : ∀ l ∈ ps, l.name ≠ x := by
              intro l hl hn
              exact hpure_removed l hl (hn ▸ hx)
            rw [ha2, find_bindPures_not_mem hxn]
            exact hinv1 x (hsub12 hx)
          have hcard : f2.variables.card < f1.variables.card := by
            apply Finset.card_lt_card
            rw [Finset.ssubset_iff_of_subset hsub12]
            obtain ⟨lp, hlp⟩ := Finset.nonempty_iff_ne_empty.mpr hpe
            exact ⟨lp.name,
              Formula.activeLits_name_mem (Formula.pure_subset_active hlp),
              hpure_removed lp hlp⟩
          have hlt2 : f2.variables.card < fuel := by
            have h1 : f1.variables.card ≤ f.variables.card := Finset.card_le_card hsub1
            have h2 : f.variables.card ≤ fuel := Nat.lt_succ_iff.mp hlt
            exact Nat.lt_of_lt_of_le hcard (le_trans h1 h2)
          obtain ⟨f3, a3, ok3, hres3, hext3, hinv3, hsub3, htrans3, hunsat3, hsat3⟩ :=
            ih f2 a2 hinv2 hlt2
          have hres : DPLLSolver.simplifyLoop (fuel + 1) f a =
              DPLLSolver.simplifyLoop fuel f2 a2 := by
            simp only [DPLLSolver.simplifyLoop, hres1, ← hps, if_neg hpe]
            rw [show f1.reduce (DPLLSolver.pureBinding ps) = (f2, false) from by
              rw [hf2, ← hflag]]
          have hf1_to_f2 : Sat f1 → Sat f2 := fun hs => (hsat_step hs).2
          refine ⟨f3, a3, ok3, by rw [hres, hres3], (hext1.trans hext12).trans hext3,
            hinv3, (hsub3.trans hsub12).trans hsub1, ?_, ?_, ?_⟩
          · intro hok B hBext hB3
            have hf2B : f2.evaluate B = some true := htrans3 hok B hBext hB3
            have hagree : Extends (DPLLSolver.pureBinding ps) B := by
              intro x b hx
              obtain ⟨l, hl, hn, hb⟩ := find_pureBinding_some hx
              have h1 : Assign.find a2 x = some b := by
                rw [ha2, ← hn, hb]
                exact find_bindPures_mem hl hinj
              exact hBext x b (hext3 x b h1)
            have hf1B : f1.evaluate B = some true :=
              Formula.reduce_sound hagree hflag hf2B
            exact htrans1 rfl B ((hext12.trans hext3).trans hBext) hf1B
          · intro hok hsatf
            exact hunsat3 hok (hf1_to_f2 (hsat1 rfl hsatf))
          · intro hok hsatf
            exact hsat3 hok (hf1_to_f2 (hsat1 rfl hsatf))

/-- Full specification of `DPLLSolver.simplify`. -/
theorem simplify_spec (f : Formula) (a : Assign) (hinv : VarInv f a) :
    ∃ f2 a2 ok, DPLLSolver.simplify f a = some (f2, a2, ok) ∧
      Extends a a2 ∧ VarInv f2 a2 ∧ f2.variables ⊆ f.variables ∧
      (ok = true → ∀ B, Extends a2 B → f2.evaluate B = some true →
        f.evaluate B = some true) ∧
      (ok = false → ¬ Sat f) ∧
      (ok = true → Sat f → Sat f2) :=
  simplifyLoop_spec (f.variables.card + 1) f a hinv (Nat.lt_succ_self _)

/-! ### Branch-variable selection -/

theorem List.head?_mem {α : Type} {L : List α} {x : α} (h : L.head? = some x) : x ∈ L := by
  cases L with
  | nil => exact absurd h (by simp)
  | cons y ys =>
    injection h with hy
    rw [← hy]
    exact List.mem_cons_self y ys

theorem head?_some_of_ne_nil {α : Type} {L : List α} (h : L ≠ []) :
    ∃ x, L.head? = some x := by
  cases L with
  | nil => exact absurd rfl h
  | cons y ys => exact ⟨y, rfl⟩

/-- The chosen branching variable is a variable of the formula. -/
theorem choose_variable_mem {f : Formula} {a : Assign} {v : String}
    (h : DPLLSolver.choose_variable f a = some v) : v ∈ f.variables := by
  simp only [DPLLSolver.choose_variable] at h
  split at h
  · rename_i x hh
    injection h with hx
    rw [← hx]
    have hxb := List.head?_mem hh
    rw [mem_msort, ← Finset.mem_def, Finset.mem_filter] at hxb
    have hxn := hxb.1
    rw [Finset.mem_image] at hxn
    obtain ⟨l, hl, hn⟩ := hxn
    rw [← hn]
    exact Formula.activeLits_name_mem hl
  · have hxb := List.head?_mem h
    rw [mem_msort, ← Finset.mem_def, Finset.mem_filter] at hxb
    exact hxb.1

/-- With the formula undecided, `choose_variable` succeeds (the
occurrence counts are nonempty, so the `max` is taken over a nonempty
dict and the `StopIteration` fallback is never consulted). -/
theorem choose_variable_some {f : Formula} {a : Assign}
    (h : f.evaluate a = none) : ∃ v, DPLLSolver.choose_variable f a = some v := by
  have hnonempty : ((f.activeLits a).image (fun l => l.name)).Nonempty := by
    unfold Formula.evaluate at h
    split at h
    · exact absurd h (by simp)
    · split at h
      · rename_i hnone
        obtain ⟨c, hc, hcn⟩ := hnone
        rw [Clause.evaluate_eq_none_iff] at hcn
        obtain ⟨hnt, hex⟩ := hcn
        obtain ⟨l, hl, hln⟩ := hex
        refine ⟨l.name, Finset.mem_image.mpr ⟨l, ?_, rfl⟩⟩
        rw [Formula.mem_activeLits]
        have hceval : c.evaluate a = none :=
          Clause.evaluate_eq_none_iff.mpr ⟨hnt, l, hl, hln⟩
        exact ⟨c, hc, by rw [hceval]; simp, hl, hln⟩
      · exact absurd h (by simp)
  simp only [DPLLSolver.choose_variable]
  split
  · rename_i x _
    exact ⟨x, rfl⟩
  · rename_i hh
    exfalso
    set names : Finset String := (f.activeLits a).image (fun l => l.name) with hnames
    set best : Finset String := names.filter
      (fun x => ∀ y ∈ names, DPLLSolver.varCount f a y ≤ DPLLSolver.varCount f a x)
      with hbest
    have hbne : best.Nonempty := by
      obtain ⟨b, hb, hmax⟩ :=
        Finset.exists_max_image names (DPLLSolver.varCount f a) hnonempty
      exact ⟨b, Finset.mem_filter.mpr ⟨hb, hmax⟩⟩
    have hlne : msort best.val ≠ [] := msort_ne_nil (by
      intro hv
      rw [Finset.val_eq_zero] at hv
      rw [hv] at hbne
      exact Finset.not_nonempty_empty hbne)
    obtain ⟨x, hx⟩ := head?_some_of_ne_nil hlne
    rw [hh] at hx
    exact absurd hx (by simp)

/-- True formula evaluation is preserved by extending the assignment. -/
theorem Formula.evaluate_mono {f : Formula} {B B2 : Assign}
    (hext : Extends B B2) (h : f.evaluate B = some true) :
    f.evaluate B2 = some true := by
  rw [Formula.evaluate_true_forall] at h ⊢
  intro c hc
  obtain ⟨l, hl, hlt⟩ := Clause.evaluate_eq_true_iff.mp (h c hc)
  exact Clause.evaluate_eq_true_iff.mpr ⟨l, hl, Literal.eval_mono hext hlt⟩

/-- Any assignment can be extended to decide a given variable without
losing satisfaction. -/
theorem extend_decides (B : Assign) (v : String) :
    ∃ B2 c, Extends B B2 ∧ Assign.find B2 v = some c ∧
      ∀ g : Formula, g.evaluate B = some true → g.evaluate B2 = some true := by
  cases hf : Assign.find B v with
  | some c => exact ⟨B, c, Extends.refl B, hf, fun g hg => hg⟩
  | none =>
    exact ⟨(v, true) :: B, true, Extends.cons_fresh hf, Assign.find_cons_self,
      fun g hg => Formula.evaluate_mono (Extends.cons_fresh hf) hg⟩

/-- Full specification of `DPLLSolver.dpll`: with the invariant and
enough fuel it never crashes, a returned assignment satisfies the
formula and extends the input assignment, and a `None` answer means the
formula is unsatisfiable. -/
theorem dpll_spec :
    ∀ (fuel : Nat) (f : Formula) (a : Assign),
    VarInv f a → f.variables.card < fuel →
    DPLLSolver.dpll fuel f a ≠ none ∧
    (∀ A, DPLLSolver.dpll fuel f a = some (some A) →
      f.evaluate A = some true ∧ Extends a A) ∧
    (DPLLSolver.dpll fuel f a = some none → ∀ B, f.evaluate B ≠ some true) := by
  intro fuel
  induction fuel with
  | zero =>
    intro f a _ hlt
    exact absurd hlt (Nat.not_lt_zero _)
  | succ fuel ih =>
    intro f a hinv hlt
    obtain ⟨f1, a1, ok, hres1, hext1, hinv1, hsub1, htrans1, hunsat1, hsat1⟩ :=
      simplify_spec f a hinv
    cases ok with
    | false =>
      have hres : DPLLSolver.dpll (fuel + 1) f a = some none := by
        simp only [DPLLSolver.dpll, hres1]
      rw [hres]
      refine ⟨by simp, ?_, ?_⟩
      · intro A hA
        exact absurd hA (by simp)
      · intro _ B hB
        exact hunsat1 rfl ⟨B, hB⟩
    | true =>
      cases hval : f1.evaluate a1 with
      | some b =>
        cases b with
        | true =>
          have hcl : f1.clauses = ∅ := hinv1.evaluate_true_iff.mp hval
          have hvars : f1.variables = ∅ := by
            have hf1 : f1 = Formula.mk ∅ := by
              cases f1
              simpa using hcl
            rw [hf1]
            exact Formula.variables_empty
          have htot : DPLLSolver.totalize f1 a1 = a1 := by
            unfold DPLLSolver.totalize
            rw [hvars]
            rw [Finset.filter_empty]
            simp only [Finset.empty_val, msort_zero, List.map_nil, List.append_nil]
          have hres : DPLLSolver.dpll (fuel + 1) f a = some (some a1) := by
            simp only [DPLLSolver.dpll, hres1, hval, htot]
          rw [hres]
          refine ⟨by simp, ?_, ?_⟩
          · intro A hA
            have h2 : some a1 = some A := by injection hA
            have h3 : a1 = A := by injection h2
            rw [← h3]
            exact ⟨htrans1 rfl a1 (Extends.refl a1) hval, hext1⟩
          · intro hA
            exact absurd hA (by simp)
        | false =>
          have hres : DPLLSolver.dpll (fuel + 1) f a = some none := by
            simp only [DPLLSolver.dpll, hres1, hval]
          rw [hres]
          refine ⟨by simp, ?_, ?_⟩
          · intro A hA
            exact absurd hA (by simp)
          · intro _ B hB
            have hmem : Clause.mk ∅ ∈ f1.clauses := hinv1.evaluate_false_iff.mp hval
            have hf1B : f1.evaluate B = some false :=
              Formula.evaluate_false_exists.mpr ⟨Clause.mk ∅, hmem,
                Clause.evaluate_eq_false_iff.mpr (fun l hl =>
                  absurd hl (Finset.not_mem_empty l))⟩
            have hs1 : Sat f1 := hsat1 rfl ⟨B, hB⟩
            obtain ⟨B2, hB2⟩ := hs1
            have hf1B2 : f1.evaluate B2 = some false :=
              Formula.evaluate_false_exists.mpr ⟨Clause.mk ∅, hmem,
                Clause.evaluate_eq_false_iff.mpr (fun l hl =>
                  absurd hl (Finset.not_mem_empty l))⟩
            rw [hB2] at hf1B2
            exact absurd hf1B2 (by simp)
      | none =>
        obtain ⟨v, hv⟩ := choose_variable_some hval
        have hvmem : v ∈ f1.variables := choose_variable_mem hv
        have hvfresh : Assign.find a1 v = none := hinv1 v hvmem
        have hbr : ∀ c : Bool, (f1.reduce [(v, c)]).2 = false →
            VarInv ((f1.reduce [(v, c)]).1) ((v, c) :: a1) ∧
            ((f1.reduce [(v, c)]).1).variables.card < fuel := by
          intro c _
          have hnm : v ∉ ((f1.reduce [(v, c)]).1).variables :=
            Formula.reduce_variables_not_mem (by rw [Assign.find_cons_self]; simp)
          have hsubc : ((f1.reduce [(v, c)]).1).variables ⊆ f1.variables :=
            Formula.reduce_variables_subset
          refine ⟨?_, ?_⟩
          · intro x hx
            have hxv : v ≠ x := fun h => hnm (h ▸ hx)
            rw [Assign.find_cons_ne hxv]
            exact hinv1 x (hsubc hx)
          · have hcard : ((f1.reduce [(v, c)]).1).variables.card < f1.variables.card :=
              Finset.card_lt_card (by
                rw [Finset.ssubset_iff_of_subset hsubc]
                exact ⟨v, hvmem, hnm⟩)
            have h1 : f1.variables.card ≤ f.variables.card := Finset.card_le_card hsub1
            have h2 : f.variables.card ≤ fuel := Nat.lt_succ_iff.mp hlt
            exact Nat.lt_of_lt_of_le hcard (le_trans h1 h2)
        have hsound_branch : ∀ c : Bool, (f1.reduce [(v, c)]).2 = false → ∀ A,
            DPLLSolver.dpll fuel ((f1.reduce [(v, c)]).1) ((v, c) :: a1) =
              some (some A) →
            f.evaluate A = some true ∧ Extends a A := by
          intro c hc A hA
          obtain ⟨hfA, hextA⟩ := (ih _ _ (hbr c hc).1 (hbr c hc).2).2.1 A hA
          have hfind : Assign.find A v = some c := hextA v c Assign.find_cons_self
          have hf1A : f1.evaluate A = some true :=
            Formula.reduce_sound (Extends.single hfind) hc hfA
          have hext_a1_A : Extends a1 A :=
            (Extends.cons_fresh hvfresh).trans hextA
          exact ⟨htrans1 rfl A hext_a1_A hf1A, hext1.trans hext_a1_A⟩
        have hwitness : ∀ B, f.evaluate B = some true →
            ∃ c : Bool, (f1.reduce [(v, c)]).2 = false ∧
              Sat ((f1.reduce [(v, c)]).1) := by
          intro B hB
          obtain ⟨B1, hB1⟩ := hsat1 rfl ⟨B, hB⟩
          obtain ⟨B2, c, _, hfind2, hmono⟩ := extend_decides B1 v
          have hB2 : f1.evaluate B2 = some true := hmono f1 hB1
          obtain ⟨hflagc, hredB2⟩ :=
            Formula.reduce_complete (Extends.single hfind2) hB2
          exact ⟨c, hflagc, ⟨B2, hredB2⟩⟩
        obtain ⟨fT, bT, hfT⟩ : ∃ g b, f1.reduce [(v, true)] = (g, b) :=
          ⟨(f1.reduce [(v, true)]).1, (f1.reduce [(v, true)]).2, Prod.mk.eta.symm⟩
        obtain ⟨fF, bF, hfF⟩ : ∃ g b, f1.reduce [(v, false)] = (g, b) :=
          ⟨(f1.reduce [(v, false)]).1, (f1.reduce [(v, false)]).2, Prod.mk.eta.symm⟩
        have hfT1 : (f1.reduce [(v, true)]).1 = fT := by rw [hfT]
        have hfT2 : (f1.reduce [(v, true)]).2 = bT := by rw [hfT]
        have hfF1 : (f1.reduce [(v, false)]).1 = fF := by rw [hfF]
        have hfF2 : (f1.reduce [(v, false)]).2 = bF := by rw [hfF]
        cases bT with
        | true =>
          have hTf : (f1.reduce [(v, true)]).2 = true := hfT2
          cases bF with
          | true =>
            have hFf : (f1.reduce [(v, false)]).2 = true := hfF2
            have hres : DPLLSolver.dpll (fuel + 1) f a = some none := by
              simp only [DPLLSolver.dpll, hres1, hval, hv, hfT, hfF]
            rw [hres]
            refine ⟨by simp, fun A hA => absurd hA (by simp), ?_⟩
            intro _ B hB
            obtain ⟨c, hflagc, _⟩ := hwitness B hB
            cases c with
            | true => rw [hTf] at hflagc; exact absurd hflagc (by simp)
            | false => rw [hFf] at hflagc; exact absurd hflagc (by simp)
          | false =>
            have hFf : (f1.reduce [(v, false)]).2 = false := hfF2
            have hres : DPLLSolver.dpll (fuel + 1) f a =
                DPLLSolver.dpll fuel ((f1.reduce [(v, false)]).1) ((v, false) :: a1) := by
              simp only [DPLLSolver.dpll, hres1, hval, hv, hfT, hfF]
            obtain ⟨hne, hsound, hcomp⟩ := ih _ _ (hbr false hFf).1 (hbr false hFf).2
            rw [hres]
            refine ⟨hne, hsound_branch false hFf, ?_⟩
            intro hnone B hB
            obtain ⟨c, hflagc, hsatc⟩ := hwitness B hB
            cases c with
            | true => rw [hTf] at hflagc; exact absurd hflagc (by simp)
            | false =>
              obtain ⟨B3, hB3⟩ := hsatc
              exact hcomp hnone B3 hB3
        | false =>
          have hTf : (f1.reduce [(v, true)]).2 = false := hfT2
          obtain ⟨hneT, hsoundT, hcompT⟩ := ih _ _ (hbr true hTf).1 (hbr true hTf).2
          cases hrT : DPLLSolver.dpll fuel ((f1.reduce [(v, true)]).1) ((v, true) :: a1) with
          | none => exact absurd hrT hneT
          | some rT =>
            have hrTn : DPLLSolver.dpll fuel fT ((v, true) :: a1) = some rT := by
              rw [← hfT1]
              exact hrT
            cases rT with
            | some r =>
              have hres : DPLLSolver.dpll (fuel + 1) f a = some (some r) := by
                simp only [DPLLSolver.dpll, hres1, hval, hv, hfT, hrTn]
              rw [hres]
              refine ⟨by simp, ?_, fun h => absurd h (by simp)⟩
              intro A hA
              have h2 : some r = some A := by injection hA
              have h3 : r = A := by injection h2
              rw [← h3]
              exact hsound_branch true hTf r hrT
            | none =>
              cases bF with
              | true =>
                have hFf : (f1.reduce [(v, false)]).2 = true := hfF2
                have hres : DPLLSolver.dpll (fuel + 1) f a = some none := by
                  simp only [DPLLSolver.dpll, hres1, hval, hv, hfT, hrTn, hfF]
                rw [hres]
                refine ⟨by simp, fun A hA => absurd hA (by simp), ?_⟩
                intro _ B hB
                obtain ⟨c, hflagc, hsatc⟩ := hwitness B hB
                cases c with
                | true =>
                  obtain ⟨B3, hB3⟩ := hsatc
                  exact hcompT hrT B3 hB3
                | false => rw [hFf] at hflagc; exact absurd hflagc (by simp)
              | false =>
                have hFf : (f1.reduce [(v, false)]).2 = false := hfF2
                have hres : DPLLSolver.dpll (fuel + 1) f a =
                    DPLLSolver.dpll fuel ((f1.reduce [(v, false)]).1)
                      ((v, false) :: a1) := by
                  simp only [DPLLSolver.dpll, hres1, hval, hv, hfT, hrTn, hfF]
                obtain ⟨hneF, hsoundF, hcompF⟩ := ih _ _ (hbr false hFf).1 (hbr false hFf).2
                rw [hres]
                refine ⟨hneF, hsound_branch false hFf, ?_⟩
                intro hnone B hB
                obtain ⟨c, hflagc, hsatc⟩ := hwitness B hB
                cases c with
                | true =>
                  obtain ⟨B3, hB3⟩ := hsatc
                  exact hcompT hrT B3 hB3
                | false =>
                  obtain ⟨B3, hB3⟩ := hsatc
                  exact hcompF hnone B3 hB3

/-! ### Totalisation lemmas -/

theorem Assign.find_append {a b : Assign} {x : String} :
    Assign.find (a ++ b) x =
      match Assign.find a x with
      | some v => some v
      | none => Assign.find b x := by
  induction a with
  | nil => rfl
  | cons yb rest ih =>
    obtain ⟨y, w⟩ := yb
    rw [List.cons_append]
    by_cases hy : y = x
    · subst hy
      rw [Assign.find_cons_self, Assign.find_cons_self]
    · rw [Assign.find_cons_ne hy, Assign.find_cons_ne hy, ih]

theorem Assign.find_map_false {L : List String} {x : String} (h : x ∈ L) :
    Assign.find (L.map (fun v => (v, false))) x = some false := by
  induction L with
  | nil => exact absurd h (List.not_mem_nil x)
  | cons y rest ih =>
    rw [List.map_cons]
    unfold Assign.find
    by_cases hy : y = x
    · rw [if_pos hy]
    · rw [if_neg hy]
      rcases List.mem_cons.mp h with heq | hmem
      · exact absurd heq.symm hy
      · exact ih hmem

theorem totalize_find {f : Formula} {a : Assign} {v : String}
    (hv : v ∈ f.variables) :
    Assign.find (DPLLSolver.totalize f a) v ≠ none ∧
      (Assign.find a v = none →
        Assign.find (DPLLSolver.totalize f a) v = some false) := by
  unfold DPLLSolver.totalize
  rw [Assign.find_append]
  cases hf : Assign.find a v with
  | some b => exact ⟨by simp, fun h => absurd h (by simp)⟩
  | none =>
    have hmem : v ∈ msort ((f.variables.filter (fun x => Assign.find a x = none)).val) := by
      rw [mem_msort, ← Finset.mem_def, Finset.mem_filter]
      exact ⟨hv, hf⟩
    rw [Assign.find_map_false hmem]
    exact ⟨by simp, fun _ => rfl⟩

/-! ### Remaining helper lemmas for the claims -/

theorem Clause.tauto_mono {c2 c : Clause} (hsub : c2.literals ⊆ c.literals)
    (h : c2.tauto) : c.tauto := by
  obtain ⟨l, hl, hcompl⟩ := h
  exact ⟨l, hsub hl, hsub hcompl⟩

/-- A clause of a contradiction-free reduction result is fixed by a
second reduction under the same assignment and is not empty. -/
theorem red_clause_fixed {f : Formula} {a : Assign} (hflag : (f.reduce a).2 = false)
    {c2 : Clause} (hc2 : c2 ∈ ((f.reduce a).1).clauses) :
    c2.reduce a = some c2 ∧ c2 ≠ Clause.mk ∅ := by
  obtain ⟨c, hc, hr⟩ := (Formula.mem_reduce_fst hflag).mp hc2
  have h1 := Clause.reduce_eq_some_iff.mp hr
  constructor
  · rw [Clause.reduce_eq_some_iff]
    constructor
    · intro l hl
      rw [h1.2, Clause.mem_reduced] at hl
      rw [hl.2]
      simp
    · have hfix : c2.reduced a = c2 := by
        unfold Clause.reduced
        rw [Finset.filter_true_of_mem]
        intro l hl
        rw [h1.2, Clause.mem_reduced] at hl
        exact hl.2
      exact hfix.symm
  · intro hemp
    have hred : c.reduce a = some (Clause.mk ∅) := by rw [hr, hemp]
    have := Formula.reduce_snd_true_iff.mpr ⟨c, hc, hred⟩
    rw [hflag] at this
    exact absurd this (by simp)

theorem reduce_empty_formula (a : Assign) :
    (Formula.mk ∅).reduce a = (Formula.mk ∅, false) := by
  rw [Formula.reduce_ok (f := Formula.mk ∅) (fun c hc => absurd hc (Finset.not_mem_empty c))]
  simp

/-! ## The claims -/

/-- C1: Soundness of the solver: for every formula `F`, if
`DPLLSolver.solve F` returns an assignment `A` (rather than `None`),
then `F.evaluate A` returns `True`. -/
theorem claim_solve_sound (F : Formula) (A : Assign)
    (h : DPLLSolver.solve F = some (some A)) : F.evaluate A = some true :=
  ((dpll_spec (F.variables.card + 1) F [] (VarInv.empty_assign F)
    (Nat.lt_succ_self _)).2.1 A h).1

theorem claim_solve_sound_witness :
    DPLLSolver.solve (Formula.of [Clause.of [Literal.mk "x" false]]) =
      some (some [("x", true)]) ∧
    (Formula.of [Clause.of [Literal.mk "x" false]]).evaluate [("x", true)] = some true :=
  ⟨by decide, claim_solve_sound _ [("x", true)] (by decide)⟩

/-- C2 (counterexample): the claim "every variable of `F.variables()` is
a key of the returned assignment" fails on the code: for
`F = {{x}, {x ∨ y}}` unit propagation binds `x` and drops both clauses,
the success leaf totalises over the now-empty formula's variables, and
the returned assignment `{x: True}` has no key `y` although
`y ∈ F.variables()`. -/
theorem claim_totality_counterexample :
    DPLLSolver.solve (Formula.of [Clause.of [Literal.mk "x" false],
        Clause.of [Literal.mk "x" false, Literal.mk "y" false]]) =
      some (some [("x", true)]) ∧
    "y" ∈ (Formula.of [Clause.of [Literal.mk "x" false],
        Clause.of [Literal.mk "x" false, Literal.mk "y" false]]).variables ∧
    Assign.find [("x", true)] "y" = none :=
  ⟨by decide, by decide, by decide⟩

/-- C2 (amended): the totalisation loop of `dpll` runs over the
variables of the *current simplified* formula, not of the original
input: for every formula `f` and assignment `a`, every `v` of
`f.variables` is a key of `totalize f a`, and a previously unbound `v`
is bound to `False`.  (At the success leaf the simplified formula is
empty, so variables of the original formula that disappeared inside
satisfied clauses may be absent from the answer.) -/
theorem claim_totalize_covers (f : Formula) (a : Assign) (v : String)
    (hv : v ∈ f.variables) :
    Assign.find (DPLLSolver.totalize f a) v ≠ none ∧
      (Assign.find a v = none →
        Assign.find (DPLLSolver.totalize f a) v = some false) :=
  totalize_find hv

theorem claim_totalize_covers_witness :
    "x" ∈ (Formula.of [Clause.of [Literal.mk "x" false]]).variables ∧
    (Assign.find (DPLLSolver.totalize (Formula.of [Clause.of [Literal.mk "x" false]]) [])
        "x" ≠ none ∧
      (Assign.find ([] : Assign) "x" = none →
        Assign.find (DPLLSolver.totalize (Formula.of [Clause.of [Literal.mk "x" false]]) [])
          "x" = some false)) :=
  ⟨by decide, claim_totalize_covers _ [] "x" (by decide)⟩

/-- C3: Completeness of the solver: if `DPLLSolver.solve F` returns
`None`, then no total assignment over `F.variables()` makes
`F.evaluate` return `True`. -/
theorem claim_solve_complete (F : Formula) (B : Assign)
    (_hB : ∀ x ∈ F.variables, Assign.find B x ≠ none)
    (h : DPLLSolver.solve F = some none) : F.evaluate B ≠ some true :=
  (dpll_spec (F.variables.card + 1) F [] (VarInv.empty_assign F)
    (Nat.lt_succ_self _)).2.2 h B

theorem claim_solve_complete_witness :
    DPLLSolver.solve (Formula.of [Clause.of [Literal.mk "x" false],
        Clause.of [Literal.mk "x" true]]) = some none ∧
    (Formula.of [Clause.of [Literal.mk "x" false],
        Clause.of [Literal.mk "x" true]]).evaluate [("x", true)] ≠ some true :=
  ⟨by decide, claim_solve_complete _ [("x", true)] (by decide) (by decide)⟩

/-- C4: Termination of the search: `solve` always returns within the
fuel bound `variables.card + 1` (never exhausting it), because the
formula passed to each recursive `dpll` call — `formula.reduce {var:
choice}` for the chosen branching variable — has a variable set that is
a strict subset of the parent's, so recursion depth is bounded by the
number of distinct variables. -/
theorem claim_termination :
    (∀ F : Formula, DPLLSolver.solve F ≠ none) ∧
    (∀ (f : Formula) (a : Assign) (v : String),
      DPLLSolver.choose_variable f a = some v → ∀ c : Bool,
      ((f.reduce [(v, c)]).1).variables ⊂ f.variables ∧
      ((f.reduce [(v, c)]).1).variables.card < f.variables.card) := by
  constructor
  · intro F
    exact (dpll_spec (F.variables.card + 1) F [] (VarInv.empty_assign F)
      (Nat.lt_succ_self _)).1
  · intro f a v hv c
    have hvmem := choose_variable_mem hv
    have hnm : v ∉ ((f.reduce [(v, c)]).1).variables :=
      Formula.reduce_variables_not_mem (by rw [Assign.find_cons_self]; simp)
    have hsub : ((f.reduce [(v, c)]).1).variables ⊆ f.variables :=
      Formula.reduce_variables_subset
    have hss : ((f.reduce [(v, c)]).1).variables ⊂ f.variables := by
      rw [Finset.ssubset_iff_of_subset hsub]
      exact ⟨v, hvmem, hnm⟩
    exact ⟨hss, Finset.card_lt_card hss⟩

theorem claim_termination_witness :
    DPLLSolver.solve (Formula.of [Clause.of [Literal.mk "x" false]]) ≠ none ∧
    (((Formula.of [Clause.of [Literal.mk "x" false]]).reduce [("x", true)]).1).variables ⊂
      (Formula.of [Clause.of [Literal.mk "x" false]]).variables :=
  ⟨claim_termination.1 _,
    (claim_termination.2 (Formula.of [Clause.of [Literal.mk "x" false]]) [] "x"
      (by decide) true).1⟩

/-- C5: Tautology-freedom invariant: `Formula.of` returns a formula with
no tautological clause, and `Formula.reduce` preserves the invariant, so
no tautological clause ever appears in the solver's working formula. -/
theorem claim_tautology_invariant :
    (∀ L : List Clause, ∀ c ∈ (Formula.of L).clauses, ¬ c.tauto) ∧
    (∀ (f : Formula) (a : Assign), (∀ c ∈ f.clauses, ¬ c.tauto) →
      ∀ c2 ∈ ((f.reduce a).1).clauses, ¬ c2.tauto) := by
  constructor
  · intro L c hc
    unfold Formula.of at hc
    rw [List.mem_toFinset, List.mem_filter] at hc
    have h2 := hc.2
    simpa using h2
  · intro f a hf c2 hc2
    cases hflag : (f.reduce a).2 with
    | true =>
      rw [Formula.reduce_fst_of_true hflag] at hc2
      exact absurd hc2 (Finset.not_mem_empty c2)
    | false =>
      obtain ⟨c, hc, hr⟩ := (Formula.mem_reduce_fst hflag).mp hc2
      intro htauto
      apply hf c hc
      apply Clause.tauto_mono ?_ htauto
      rw [(Clause.reduce_eq_some_iff.mp hr).2]
      intro l hl
      exact (Clause.mem_reduced.mp hl).1

theorem claim_tautology_invariant_witness :
    ¬ (Clause.mk {Literal.mk "x" false}).tauto :=
  claim_tautology_invariant.2 (Formula.of [Clause.of [Literal.mk "x" false]]) []
    (by decide) (Clause.mk {Literal.mk "x" false}) (by decide)

/-- C6: Contract of `Formula.reduce`: the contradiction flag is `True`
exactly when some clause reduces to the empty clause, in which case the
returned formula is the empty formula; otherwise the flag is `False`
and the result is the set of reduced not-satisfied clauses (satisfied
clauses dropped, every kept clause reduced). -/
theorem claim_reduce_contract (f : Formula) (a : Assign) :
    ((f.reduce a).2 = true ↔ ∃ c ∈ f.clauses, c.reduce a = some (Clause.mk ∅)) ∧
    ((f.reduce a).2 = true → (f.reduce a).1 = Formula.mk ∅) ∧
    ((f.reduce a).2 = false →
      ((f.reduce a).1).clauses =
        (f.clauses.filter (fun c => c.reduce a ≠ none)).image (fun c => c.reduced a)) := by
  refine ⟨Formula.reduce_snd_true_iff, Formula.reduce_fst_of_true, ?_⟩
  intro hflag
  have hn : ∀ c ∈ f.clauses, c.reduce a ≠ some (Clause.mk ∅) := by
    by_contra hc
    push_neg at hc
    have := Formula.reduce_snd_true_iff.mpr hc
    rw [hflag] at this
    exact absurd this (by simp)
  rw [Formula.reduce_ok hn]

theorem claim_reduce_contract_witness :
    ((Formula.of [Clause.of [Literal.mk "x" false]]).reduce [("x", false)]).1 =
      Formula.mk ∅ :=
  (claim_reduce_contract (Formula.of [Clause.of [Literal.mk "x" false]])
    [("x", false)]).2.1 (by decide)

/-- C7: Idempotence of reduction: reducing the formula component of
`F.reduce A` again under the same `A` yields the same formula, and when
the first reduction succeeded (flag `False`) the whole pair is
reproduced, the second flag being `False` again. -/
theorem claim_reduce_idempotent (f : Formula) (a : Assign) :
    (((f.reduce a).1).reduce a).1 = (f.reduce a).1 ∧
    ((f.reduce a).2 = false → ((f.reduce a).1).reduce a = f.reduce a) := by
  cases hflag : (f.reduce a).2 with
  | true =>
    have hfst := Formula.reduce_fst_of_true hflag
    rw [hfst, reduce_empty_formula]
    exact ⟨rfl, fun h => absurd h (by simp)⟩
  | false =>
    have hall : ∀ c2 ∈ ((f.reduce a).1).clauses, c2.reduce a ≠ some (Clause.mk ∅) := by
      intro c2 hc2 hred
      obtain ⟨hfix, hne⟩ := red_clause_fixed hflag hc2
      rw [hfix] at hred
      injection hred with h2
      exact hne h2
    have hok := Formula.reduce_ok hall
    have himg : (((f.reduce a).1).clauses.filter (fun c => c.reduce a ≠ none)).image
        (fun c => c.reduced a) = ((f.reduce a).1).clauses := by
      ext c2
      rw [Finset.mem_image]
      constructor
      · rintro ⟨c0, hc0, heq⟩
        rw [Finset.mem_filter] at hc0
        have hfix := (red_clause_fixed hflag hc0.1).1
        have h0 : c0 = c0.reduced a := (Clause.reduce_eq_some_iff.mp hfix).2
        rw [← heq, ← h0]
        exact hc0.1
      · intro hc2
        have hfix := (red_clause_fixed hflag hc2).1
        refine ⟨c2, Finset.mem_filter.mpr ⟨hc2, by rw [hfix]; simp⟩, ?_⟩
        exact ((Clause.reduce_eq_some_iff.mp hfix).2).symm
    rw [himg] at hok
    have heta : Formula.mk (((f.reduce a).1).clauses) = (f.reduce a).1 := rfl
    rw [heta] at hok
    refine ⟨by rw [hok], fun _ => ?_⟩
    rw [hok]
    exact (Prod.mk.eta.symm.trans (by rw [hflag])).symm

theorem claim_reduce_idempotent_witness :
    (((Formula.of [Clause.of [Literal.mk "x" false]]).reduce []).1).reduce [] =
      (Formula.of [Clause.of [Literal.mk "x" false]]).reduce [] :=
  (claim_reduce_idempotent (Formula.of [Clause.of [Literal.mk "x" false]]) []).2
    (by decide)

/-- C8: Pure-literal polarity: if the variable `p` has a non-negated
undecided occurrence in a clause not already true and no negated such
occurrence, then `pure_literals` contains the non-negated literal for
`p` and the pure-literal binding step of `simplify` binds `p` to
`True`. -/
theorem claim_pure_polarity (f : Formula) (a : Assign) (p : String)
    (hpos : Literal.mk p false ∈ f.activeLits a)
    (hneg : Literal.mk p true ∉ f.activeLits a) :
    Literal.mk p false ∈ f.pure_literals a ∧
    Assign.find (DPLLSolver.bindPures (f.pure_literals a) a) p = some true := by
  have hmem : Literal.mk p false ∈ f.pure_literals a := by
    unfold Formula.pure_literals
    rw [Finset.mem_filter]
    refine ⟨hpos, ?_⟩
    simpa using hneg
  refine ⟨hmem, ?_⟩
  have h2 := find_bindPures_mem (a := a) hmem Formula.pure_names_inj
  simpa using h2

theorem claim_pure_polarity_witness :
    Literal.mk "p" false ∈
      (Formula.of [Clause.of [Literal.mk "p" false, Literal.mk "q" true]]).pure_literals
        [] ∧
    Assign.find (DPLLSolver.bindPures
      ((Formula.of [Clause.of [Literal.mk "p" false, Literal.mk "q" true]]).pure_literals
        []) []) "p" = some true :=
  claim_pure_polarity _ [] "p" (by decide) (by decide)

/-- C9: Assertion validity in unit propagation: in every state with the
working formula's variables disjoint from the assignment's keys (the
states reachable from `solve`), `simplify` returns normally — the
embedded `none`, which stands for the failing `assert target is not
None` (or any other raise), never occurs. -/
theorem claim_assert_safe (f : Formula) (a : Assign)
    (hdisj : ∀ x ∈ f.variables, Assign.find a x = none) :
    DPLLSolver.simplify f a ≠ none := by
  obtain ⟨f2, a2, ok, hres, _⟩ := simplify_spec f a hdisj
  rw [hres]
  simp

theorem claim_assert_safe_witness :
    DPLLSolver.simplify (Formula.of [Clause.of [Literal.mk "x" false]]) [] ≠ none :=
  claim_assert_safe (Formula.of [Clause.of [Literal.mk "x" false]]) [] (by decide)

/-- C10: the bare clause constructor performs no tautology filtering:
`Clause.of L` is exactly `Clause (frozenset L)` (duplicates collapse by
set semantics, the dead sign-check loop has no effect), a clause with
both `x` and `¬x` is returned unchanged with both literals, and it is
`Formula.of` that removes it. -/
theorem claim_clause_of_unfiltered :
    (∀ L : List Literal, Clause.of L = Clause.mk L.toFinset) ∧
    (Clause.of [Literal.mk "x" false, Literal.mk "x" true]).literals =
      ({Literal.mk "x" false, Literal.mk "x" true} : Finset Literal) ∧
    (Formula.of [Clause.of [Literal.mk "x" false, Literal.mk "x" true]]).clauses = ∅ :=
  ⟨fun _ => rfl, by decide, by decide⟩

example : Formula.of [Clause.of [Literal.mk "x" false, Literal.mk "x" true]] = Formula.mk ∅ := by
  decide

example : (Clause.of [Literal.mk "x" false, Literal.mk "x" true]).literals.card = 2 := by decide

example :
    (Formula.of [Clause.of [Literal.mk "x" false]]).reduce [("x", true)] = (Formula.mk ∅, false) := by
  decide

example :
    (Formula.of [Clause.of [Literal.mk "x" false]]).reduce [("x", false)] = (Formula.mk ∅, true) := by
  decide

example :
    DPLLSolver.solve (Formula.of [Clause.of [Literal.mk "x" false]]) =
      some (some [("x", true)]) := by
  decide

example :
    DPLLSolver.solve (Formula.of [Clause.of [Literal.mk "x" false], Clause.of [Literal.mk "x" true]]) =
      some none := by
  decide

example :
    DPLLSolver.solve (Formula.of [Clause.of [Literal.mk "x" false],
      Clause.of [Literal.mk "x" false, Literal.mk "y" false]]) =
      some (some [("x", true)]) := by
  decide

example :
    DPLLSolver.solve (Formula.of [Clause.of [Literal.mk "x" false, Literal.mk "y" false]]) =
      some (some [("y", true), ("x", true)]) := by
  decide
